import Mathlib

/-!
# Verification of the Figma token → SCSS generator

A shallow embedding, in Lean 4, of the token-transformation core of
`scripts/generateTokens.mjs` (class `FigmaTokenParser`): name
normalization, reference resolution, value conversion, token flattening,
theme partitioning and stylesheet emission.  Strings are modelled as
`List Char`; JavaScript values as the inductive `JSValue`; the mutable
`categories` object as an insertion-ordered association list.  The
embedding restricts JavaScript numbers to integers (no token in scope
exercises float formatting) and models ASCII case conversion.
-/

set_option maxRecDepth 8000

abbrev Str := List Char

def S (s : String) : Str := s.toList

/-! ## Character predicates (JavaScript semantics) -/

def isLowerAZ (c : Char) : Bool := decide (97 ≤ c.toNat ∧ c.toNat ≤ 122)

def isUpperAZ (c : Char) : Bool := decide (65 ≤ c.toNat ∧ c.toNat ≤ 90)

def isDigit09 (c : Char) : Bool := decide (48 ≤ c.toNat ∧ c.toNat ≤ 57)

/-- The character class `[a-z0-9-]` of `normalizeTokenName`. -/
def isSafeChar (c : Char) : Bool := isLowerAZ c || isDigit09 c || decide (c = '-')

/-- JavaScript `\s`: ASCII whitespace plus the Unicode space separators. -/
def isJsWs (c : Char) : Bool :=
  decide (c.toNat = 32 ∨ c.toNat = 9 ∨ c.toNat = 10 ∨ c.toNat = 13 ∨ c.toNat = 11 ∨
    c.toNat = 12 ∨ c.toNat = 160 ∨ c.toNat = 65279 ∨ c.toNat = 0x1680 ∨
    (0x2000 ≤ c.toNat ∧ c.toNat ≤ 0x200A) ∨ c.toNat = 0x2028 ∨ c.toNat = 0x2029 ∨
    c.toNat = 0x202F ∨ c.toNat = 0x205F ∨ c.toNat = 0x3000)

/-- ASCII lower-casing, the fragment of `String.prototype.toLowerCase` the
generator relies on. -/
def jsLowerChar (c : Char) : Char :=
  if isUpperAZ c then Char.ofNat (c.toNat + 32) else c

/-- ASCII upper-casing (`String.prototype.toUpperCase` on one character). -/
def jsUpperChar (c : Char) : Char :=
  if isLowerAZ c then Char.ofNat (c.toNat - 32) else c

def lowerS (s : Str) : Str := s.map jsLowerChar

/-! ## `normalizeTokenName` (source lines 346–354), one definition per
chained `replace` call. -/

/-- `.replace(/([a-z])([A-Z])/g, "$1-$2")`: a hyphen between a lower-case
letter and the upper-case letter right after it; the scan resumes after
the matched pair. -/
def normStep1 : Str → Str
  | [] => []
  | [c] => [c]
  | a :: b :: rest =>
    if isLowerAZ a && isUpperAZ b then a :: '-' :: b :: normStep1 rest
    else a :: normStep1 (b :: rest)

/-- `.replace(/[A-Z]/g, l => "-" + l.toLowerCase())`. -/
def normStep2 : Str → Str
  | [] => []
  | c :: rest =>
    if isUpperAZ c then '-' :: jsLowerChar c :: normStep2 rest
    else c :: normStep2 rest

/-- `.replace(/\s+/g, "-")`: each maximal whitespace run becomes one
hyphen (emitted at the run's last character). -/
def normStep3 : Str → Str
  | [] => []
  | c :: rest =>
    if isJsWs c then
      (if (rest.head?.map isJsWs).getD false then normStep3 rest
       else '-' :: normStep3 rest)
    else c :: normStep3 rest

/-- `.replace(/[^a-z0-9-]/g, "")`. -/
def normStep4 (s : Str) : Str := s.filter isSafeChar

def isDashB (c : Char) : Bool := decide (c = '-')

/-- `.replace(/^-+|-+$/g, "")`: strip the leading and the trailing run of
hyphens. -/
def normStep5 (s : Str) : Str :=
  ((s.dropWhile isDashB).reverse.dropWhile isDashB).reverse

/-- `.toLowerCase()`. -/
def normStep6 (s : Str) : Str := s.map jsLowerChar

def normalizeTokenName (s : Str) : Str :=
  normStep6 (normStep5 (normStep4 (normStep3 (normStep2 (normStep1 s)))))

/-! ## JavaScript values

The token document is parsed JSON; `undefined` is represented by `none`
at the access sites (`getField`). -/

mutual

inductive JSValue where
  | null : JSValue
  | bool : Bool → JSValue
  | num : Int → JSValue
  | str : Str → JSValue
  | arr : JSList → JSValue
  | obj : JSFields → JSValue

inductive JSList where
  | nil : JSList
  | cons : JSValue → JSList → JSList

inductive JSFields where
  | nil : JSFields
  | cons : Str → JSValue → JSFields → JSFields

end

/-- The elements of an array value, as a Lean list. -/
def arrToList : JSList → List JSValue
  | JSList.nil => []
  | JSList.cons h t => h :: arrToList t

/-- The entries of an object value, as a Lean list (insertion order). -/
def fieldsToList : JSFields → List (Str × JSValue)
  | JSFields.nil => []
  | JSFields.cons k v t => (k, v) :: fieldsToList t

def fieldsAppend : JSFields → JSFields → JSFields
  | JSFields.nil, b => b
  | JSFields.cons k v t, b => JSFields.cons k v (fieldsAppend t b)

mutual

def jsSizeV : JSValue → Nat
  | JSValue.arr xs => 1 + jsSizeL xs
  | JSValue.obj fs => 1 + jsSizeFs fs
  | _ => 1

def jsSizeL : JSList → Nat
  | JSList.nil => 0
  | JSList.cons h t => 1 + jsSizeV h + jsSizeL t

def jsSizeFs : JSFields → Nat
  | JSFields.nil => 0
  | JSFields.cons _ v t => 1 + jsSizeV v + jsSizeFs t

end

/-- Object field lookup (first match; token documents carry no duplicate
keys). -/
def lookupFields : JSFields → Str → Option JSValue
  | JSFields.nil, _ => none
  | JSFields.cons k2 v rest, k => if k2 = k then some v else lookupFields rest k

/-- `v.k`: property access; `none` is JavaScript `undefined`.  A named
property read on anything but an object literal (arrays, primitives)
yields `undefined` for the names this program uses. -/
def getField (v : JSValue) (k : Str) : Option JSValue :=
  match v with
  | JSValue.obj fs => lookupFields fs k
  | _ => none

/-- JavaScript truthiness. -/
def truthy : JSValue → Bool
  | JSValue.null => false
  | JSValue.bool b => b
  | JSValue.num n => decide (n ≠ 0)
  | JSValue.str s => decide (s ≠ [])
  | JSValue.arr _ => true
  | JSValue.obj _ => true

def truthyO : Option JSValue → Bool
  | none => false
  | some v => truthy v

/-- `a || b` on JavaScript values (with `undefined` as `none`). -/
def jsOrV (a b : Option JSValue) : Option JSValue := if truthyO a then a else b

/-! ## Number formatting (integers; no token in scope exercises float
formatting) -/

def digitChar (n : Nat) : Char := Char.ofNat (48 + n)

/-- Decimal digits, with the value itself as recursion fuel (one digit
consumes one fuel unit at least, and `n` has at most `n` digits). -/
def natToStrF : Nat → Nat → Str → Str
  | 0, n, acc => digitChar n :: acc
  | fuel + 1, n, acc =>
    if n < 10 then digitChar n :: acc
    else natToStrF fuel (n / 10) (digitChar (n % 10) :: acc)

def natToStr (n : Nat) : Str := natToStrF n n []

def intToStr (i : Int) : Str :=
  if i < 0 then '-' :: natToStr i.natAbs else natToStr i.natAbs

/-! ## Template-literal stringification (`${x}`) -/

def joinWith (sep : Str) : List Str → Str
  | [] => []
  | [x] => x
  | x :: rest => x ++ sep ++ joinWith sep rest

def isNullV : JSValue → Bool
  | JSValue.null => true
  | _ => false

mutual

/-- `String(x)`, as used by the template literals of the generator.  An
array stringifies as its elements joined by `,`, with `null` elements
rendered empty. -/
def jsTemplate : JSValue → Str
  | JSValue.null => S "null"
  | JSValue.bool b => if b then S "true" else S "false"
  | JSValue.num n => intToStr n
  | JSValue.str s => s
  | JSValue.obj _ => S "[object Object]"
  | JSValue.arr xs => joinWith (S ",") (jsTemplateList xs)

def jsTemplateList : JSList → List Str
  | JSList.nil => []
  | JSList.cons x rest => (if isNullV x then [] else jsTemplate x) :: jsTemplateList rest

end

def hexDigit (n : Nat) : Char := if n < 10 then Char.ofNat (48 + n) else Char.ofNat (87 + n)

def jsonEscapeChar (c : Char) : Str :=
  if c = '"' then S "\\\""
  else if c = '\\' then S "\\\\"
  else if c = '\n' then S "\\n"
  else if c = '\r' then S "\\r"
  else if c = '\t' then S "\\t"
  else if c = '\x08' then S "\\b"
  else if c = '\x0c' then S "\\f"
  else if c.toNat < 32 then S "\\u00" ++ [hexDigit (c.toNat / 16), hexDigit (c.toNat % 16)]
  else [c]

def concatAll : List Str → Str
  | [] => []
  | x :: rest => x ++ concatAll rest

def jsonQuote (s : Str) : Str := '"' :: concatAll (s.map jsonEscapeChar) ++ ['"']

mutual

/-- `JSON.stringify`, the fallback rendering of `convertValue` for
unrecognized object shapes. -/
def jsonStringify : JSValue → Str
  | JSValue.null => S "null"
  | JSValue.bool b => if b then S "true" else S "false"
  | JSValue.num n => intToStr n
  | JSValue.str s => jsonQuote s
  | JSValue.arr xs => '[' :: joinWith (S ",") (jsonStringifyList xs) ++ [']']
  | JSValue.obj fs => '\x7b' :: joinWith (S ",") (jsonStringifyFields fs) ++ ['\x7d']

def jsonStringifyList : JSList → List Str
  | JSList.nil => []
  | JSList.cons x rest => jsonStringify x :: jsonStringifyList rest

def jsonStringifyFields : JSFields → List Str
  | JSFields.nil => []
  | JSFields.cons k v rest => (jsonQuote k ++ ':' :: jsonStringify v) :: jsonStringifyFields rest

end

/-! ## Trim and split helpers -/

def jsTrimLeft (s : Str) : Str := s.dropWhile isJsWs

def jsTrimRight (s : Str) : Str := (s.reverse.dropWhile isJsWs).reverse

/-- `String.prototype.trim`. -/
def jsTrim (s : Str) : Str := jsTrimRight (jsTrimLeft s)

/-- `String.prototype.split(".")`. -/
def splitOnDot : Str → List Str
  | [] => [[]]
  | c :: rest =>
    if c = '.' then [] :: splitOnDot rest
    else
      match splitOnDot rest with
      | [] => [[c]]
      | hd :: tl => (c :: hd) :: tl

/-- `normalizeReferencePath` (source lines 339–344). -/
def normalizeReferencePath (p : Str) : Str :=
  joinWith ['-'] ((splitOnDot p).map normalizeTokenName)

/-! ## The reference regex `\{([^}]+)\}` -/

/-- Split at the first `}`: the run of non-`}` characters and what
follows the `}` (with a length bound for termination). -/
def breakRBrace : (s : Str) → Option (Str × { b : Str // b.length < s.length })
  | [] => none
  | c :: rest =>
    if c = '\x7d' then some ([], ⟨rest, by simp only [List.length_cons]; omega⟩)
    else
      match breakRBrace rest with
      | some (a, ⟨b, hb⟩) => some (c :: a, ⟨b, by simp only [List.length_cons]; omega⟩)
      | none => none

/-- The scan of `str.replace(/\{([^}]+)\}/g, …)`, with the string's
length as recursion fuel (each step consumes at least one character). -/
def replaceRefsF : Nat → Str → Str
  | _, [] => []
  | 0, s => s
  | fuel + 1, c :: rest =>
    if c = '\x7b' then
      match breakRBrace rest with
      | some (inner, ⟨after, _⟩) =>
        if inner = [] then c :: replaceRefsF fuel rest
        else S "var(--" ++ normalizeReferencePath (jsTrim inner) ++ ')' :: replaceRefsF fuel after
      | none => c :: replaceRefsF fuel rest
    else c :: replaceRefsF fuel rest

/-- `str.replace(/\{([^}]+)\}/g, (m, p) => "var(--" + normalizeReferencePath(p.trim()) + ")")`:
the shared replacement of `processStringReferences` and
`globalFixReferences`. -/
def replaceRefs (s : Str) : Str := replaceRefsF s.length s

def hasRefF : Nat → Str → Bool
  | _, [] => false
  | 0, _ => false
  | fuel + 1, c :: rest =>
    if c = '\x7b' then
      match breakRBrace rest with
      | some (inner, ⟨_, _⟩) => if inner = [] then hasRefF fuel rest else true
      | none => hasRefF fuel rest
    else hasRefF fuel rest

/-- Whether `\{([^}]+)\}` matches at least once (the string holds a
token reference). -/
def hasRef (s : Str) : Bool := hasRefF s.length s

/-! ## `needsCalc` / `processStringReferences` (source lines 295–319) -/

def mathChar (c : Char) : Bool := decide (c = '+' ∨ c = '-' ∨ c = '*' ∨ c = '/')

/-- `str.includes(sub)`. -/
def containsSub : Str → Str → Bool
  | [], needle => needle.isPrefixOf []
  | c :: t, needle => needle.isPrefixOf (c :: t) || containsSub t needle

def needsCalc (s : Str) (_ty : Option JSValue) : Bool :=
  let hasMath := s.any mathChar
  let hasVar := containsSub s (S "var(--")
  if hasMath && hasVar then
    if !((S "calc(").isPrefixOf s) then true else false
  else false

def processStringReferences (s : Str) (ty : Option JSValue) : Str :=
  let w := replaceRefs s
  if needsCalc w ty then S "calc(" ++ w ++ [')'] else w

/-! ## `globalFixReferences` (source lines 321–337) -/

/-- `content.split("\n")`. -/
def splitLines : Str → List Str
  | [] => [[]]
  | c :: rest =>
    if c = '\n' then [] :: splitLines rest
    else
      match splitLines rest with
      | [] => [[c]]
      | hd :: tl => (c :: hd) :: tl

/-- `lines.join("\n")`. -/
def joinLines (ls : List Str) : Str := joinWith ['\n'] ls

/-- One line of the global fix-up: declaration lines (`--`), comment
lines (`//`) and blank lines pass through; the rest get the reference
replacement. -/
def fixLine (l : Str) : Str :=
  if (S "--").isPrefixOf (jsTrim l) || (S "//").isPrefixOf (jsTrim l) || jsTrim l = [] then l
  else replaceRefs l

def globalFixReferences (content : Str) : Str :=
  joinLines ((splitLines content).map fixLine)

/-! ## `convertValue` and friends (source lines 238–375) -/

def isStrV (v : JSValue) (s : Str) : Bool :=
  match v with
  | JSValue.str t => decide (t = s)
  | _ => false

/-- `ty === "s"` where `ty` may be `undefined`. -/
def optTyIs (ty : Option JSValue) (s : Str) : Bool :=
  match ty with
  | some v => isStrV v s
  | none => false

/-- `isBoxShadow` (source lines 356–363). -/
def isBoxShadow (v : JSValue) : Bool :=
  truthy v &&
    (((getField v (S "x")).isSome && (getField v (S "y")).isSome) ||
      optTyIs (getField v (S "type")) (S "dropShadow") ||
      optTyIs (getField v (S "type")) (S "innerShadow"))

/-- `field || default` (JavaScript truthiness fallback). -/
def jsOrD (a : Option JSValue) (d : JSValue) : JSValue :=
  match a with
  | some x => if truthy x then x else d
  | none => d

/-- Destructuring default: applies on `undefined` only. -/
def getFieldD (v : JSValue) (k : Str) (d : JSValue) : JSValue := (getField v k).getD d

/-- `field ? `${field}px` : alt`. -/
def pxOr (a : Option JSValue) (alt : Str) : JSValue :=
  match a with
  | some x => if truthy x then JSValue.str (jsTemplate x ++ S "px") else JSValue.str alt
  | none => JSValue.str alt

/-- `convertShadowObject` (source lines 365–375). -/
def convertShadowObject (shadow : JSValue) : Str :=
  let x := jsOrD (getField shadow (S "x")) (JSValue.num 0)
  let y := jsOrD (getField shadow (S "y")) (JSValue.num 0)
  let blur := jsOrD (getField shadow (S "blur")) (JSValue.num 0)
  let spread := jsOrD (getField shadow (S "spread")) (JSValue.num 0)
  let color := jsOrD (getField shadow (S "color")) (JSValue.str (S "#000"))
  let ty := jsOrD (getField shadow (S "type")) (JSValue.str (S "dropShadow"))
  let inset := if isStrV ty (S "innerShadow") then S "inset " else []
  inset ++ jsTemplate x ++ S "px " ++ jsTemplate y ++ S "px " ++ jsTemplate blur ++
    S "px " ++ jsTemplate spread ++ S "px " ++ jsTemplate color

/-- The non-recursive part of `convertValue`'s object branch: the
`boxShadow` / `border` / `typography` / `JSON.stringify` chain for an
object without a `value` field (or an array). -/
def convertObjectValue (v : JSValue) (ty : Option JSValue) : JSValue :=
  if optTyIs ty (S "boxShadow") || isBoxShadow v then
    match v with
    | JSValue.arr xs => JSValue.str (joinWith (S ", ") ((arrToList xs).map convertShadowObject))
    | _ => JSValue.str (convertShadowObject v)
  else if optTyIs ty (S "border") then
    JSValue.str (jsTemplate (getFieldD v (S "width") (JSValue.num 1)) ++ S "px " ++
      jsTemplate (getFieldD v (S "style") (JSValue.str (S "solid"))) ++ [' '] ++
      jsTemplate (getFieldD v (S "color") (JSValue.str (S "#000"))))
  else if optTyIs ty (S "typography") then
    JSValue.obj
      (JSFields.cons (S "font-family") (jsOrD (getField v (S "fontFamily")) (JSValue.str (S "inherit")))
        (JSFields.cons (S "font-size") (pxOr (getField v (S "fontSize")) (S "inherit"))
          (JSFields.cons (S "font-weight") (jsOrD (getField v (S "fontWeight")) (JSValue.str (S "inherit")))
            (JSFields.cons (S "line-height") (jsOrD (getField v (S "lineHeight")) (JSValue.str (S "inherit")))
              (JSFields.cons (S "letter-spacing") (pxOr (getField v (S "letterSpacing")) (S "normal"))
                JSFields.nil)))))
  else JSValue.str (jsonStringify v)

def convertValueF : Nat → JSValue → Option JSValue → JSValue
  | 0, v, _ => v
  | fuel + 1, JSValue.obj fs, ty =>
    match lookupFields fs (S "value") with
    | some w => convertValueF fuel w (lookupFields fs (S "type"))
    | none => convertObjectValue (JSValue.obj fs) ty
  | _, JSValue.arr xs, ty => convertObjectValue (JSValue.arr xs) ty
  | _, JSValue.num n, ty =>
    if optTyIs ty (S "dimension") || optTyIs ty (S "spacing") ||
        optTyIs ty (S "borderRadius") then
      JSValue.str (intToStr n ++ S "px")
    else JSValue.num n
  | _, JSValue.str s, ty =>
    if containsSub s (S "var(--") then JSValue.str s
    else JSValue.str (processStringReferences s ty)
  | _, v, _ => v

/-- `convertValue` (source lines 238–293).  Objects with a `value` field
recurse (unwrapping nested token shapes); numbers gain `px` for
dimension-like types; strings already containing `var(--` pass through,
other strings go through the reference resolver.  `jsSizeV` bounds the
unwrap depth (each unwrap step descends into a field value). -/
def convertValue (v : JSValue) (ty : Option JSValue) : JSValue :=
  convertValueF (jsSizeV v) v ty

/-! ## The category accumulator (`categories` in `flattenTokens`) -/

structure Category where
  vars : List Str
  mixins : List Str
deriving DecidableEq

/-- Insertion-ordered map from category key to accumulated lines; a new
key is appended at the end, as for a fresh JavaScript object property. -/
abbrev Categories := List (Str × Category)

def ensureCat : Categories → Str → Categories
  | [], k => [(k, ⟨[], []⟩)]
  | (k2, c) :: rest, k =>
    if k2 = k then (k2, c) :: rest else (k2, c) :: ensureCat rest k

def pushVar : Categories → Str → Str → Categories
  | [], k, line => [(k, ⟨[line], []⟩)]
  | (k2, c) :: rest, k, line =>
    if k2 = k then (k2, ⟨c.vars ++ [line], c.mixins⟩) :: rest
    else (k2, c) :: pushVar rest k line

def pushMixin : Categories → Str → Str → Categories
  | [], k, m => [(k, ⟨[], [m]⟩)]
  | (k2, c) :: rest, k, m =>
    if k2 = k then (k2, ⟨c.vars, c.mixins ++ [m]⟩) :: rest
    else (k2, c) :: pushMixin rest k m

def findCat : Categories → Str → Option Category
  | [], _ => none
  | (k2, c) :: rest, k => if k2 = k then some c else findCat rest k

def varsOf (cats : Categories) (k : Str) : List Str :=
  ((findCat cats k).map Category.vars).getD []

def mixinsOf (cats : Categories) (k : Str) : List Str :=
  ((findCat cats k).map Category.mixins).getD []

/-! ## `flattenTokens` (source lines 188–235) -/

def slashToDash (c : Char) : Char := if c = '\\' ∨ c = '/' then '-' else c

/-- `baseName.replace(/[\\\/]/g, "-").toLowerCase()`. -/
def catKeyOf (baseName : Str) : Str := lowerS (baseName.map slashToDash)

/-- `!key || key.startsWith("$")`. -/
def skipKey (k : Str) : Bool := decide (k = []) || decide (k.head? = some '$')

def typeofObject : JSValue → Bool
  | JSValue.obj _ => true
  | JSValue.arr _ => true
  | JSValue.null => true
  | _ => false

/-- `value && typeof value === "object" && (value.$type || value.type)`. -/
def leafTest (v : JSValue) : Bool :=
  truthy v && typeofObject v &&
    truthyO (jsOrV (getField v (S "$type")) (getField v (S "type")))

/-- The defensive second resolver pass of `flattenTokens` (source lines
210–212): a string conversion result without a `var(--` call goes
through `processStringReferences` once more. -/
def postConvert (conv : JSValue) (ty : Option JSValue) : JSValue :=
  match conv with
  | JSValue.str s =>
    if !containsSub s (S "var(--") then JSValue.str (processStringReferences s ty)
    else JSValue.str s
  | _ => conv

/-- `Object.entries` on the object constructor; the generator applies it
only to values already known to be objects. -/
def objEntries : JSValue → JSFields
  | JSValue.obj fs => fs
  | _ => JSFields.nil

/-- `s.replace(pat, "")` for a plain (non-regex) pattern: first
occurrence only. -/
def replaceFirstSub : Str → Str → Str
  | [], pat => if pat.isPrefixOf [] then ([] : Str).drop pat.length else []
  | c :: t, pat =>
    if pat.isPrefixOf (c :: t) then (c :: t).drop pat.length
    else c :: replaceFirstSub t pat

/-- The leaf branch of `flattenTokens` (source lines 195–230); the
category entry is created before the null check, so a null-valued leaf
still creates an empty category. -/
def processLeaf (v : JSValue) (baseName : Str) (cats : Categories) (tokenName : Str) :
    Categories :=
  let categoryKey := catKeyOf baseName
  let cats1 := ensureCat cats categoryKey
  let tokenType := jsOrV (getField v (S "$type")) (getField v (S "type"))
  let tokenValue := jsOrV (getField v (S "$value")) (getField v (S "value"))
  match tokenValue with
  | none => cats1
  | some tv =>
    if isNullV tv then cats1
    else
    let conv := postConvert (convertValue tv tokenType) tokenType
    if optTyIs tokenType (S "typography") && typeofObject conv then
      let fields := fieldsToList (objEntries conv)
      let mixinContent := S "@mixin " ++ tokenName ++ S " \x7b\n" ++
        concatAll (fields.map (fun f => S "  " ++ f.1 ++ S ": " ++ jsTemplate f.2 ++ S ";\n")) ++
        S "\x7d"
      let cats2 := pushMixin cats1 categoryKey mixinContent
      fields.foldl (fun acc f => pushVar acc categoryKey
        (S "--" ++ tokenName ++ '-' :: replaceFirstSub f.1 (S "font-") ++ S ": " ++
          jsTemplate f.2 ++ S ";")) cats2
    else
      pushVar cats1 categoryKey (S "--" ++ tokenName ++ S ": " ++ jsTemplate conv ++ S ";")

/-- The traversal of `flattenTokens` over the fields of a node. -/
def flattenTokensFields : JSFields → Str → Categories → Str → Categories
  | JSFields.nil, _, cats, _ => cats
  | JSFields.cons k v rest, baseName, cats, pfx =>
    if skipKey k then flattenTokensFields rest baseName cats pfx
    else
      let normalizedKey := normalizeTokenName k
      let currentPath := if pfx = [] then normalizedKey else pfx ++ '-' :: normalizedKey
      if leafTest v then
        flattenTokensFields rest baseName (processLeaf v baseName cats currentPath) pfx
      else
        match v with
        | JSValue.obj fs =>
          flattenTokensFields rest baseName (flattenTokensFields fs baseName cats currentPath) pfx
        | _ => flattenTokensFields rest baseName cats pfx

def flattenTokens (node : JSValue) (baseName : Str) (cats : Categories) (pfx : Str) :
    Categories :=
  flattenTokensFields (objEntries node) baseName cats pfx

/-- The flattening loop of `generateSCSS` (source lines 382–388):
top-level categories starting with `$` or `_` are skipped. -/
def categoriesOf (tokens : List (Str × JSValue)) : Categories :=
  tokens.foldl (fun cats t =>
    if decide (t.1.head? = some '$') || decide (t.1.head? = some '_') then cats
    else flattenTokens t.2 t.1 cats []) []

/-! ## Theme partitioning (`generateBaseFile`, source lines 75–111) -/

def capFirst : Str → Str
  | [] => []
  | c :: rest => jsUpperChar c :: rest

inductive ThemeBucket where
  | light : ThemeBucket
  | dark : ThemeBucket
  | base : ThemeBucket
deriving DecidableEq

/-- The routing test of `generateBaseFile`: `"light"` is tested before
`"dark"` on the lower-cased category name. -/
def bucketOf (categoryName : Str) : ThemeBucket :=
  if containsSub (lowerS categoryName) (S "light") then ThemeBucket.light
  else if containsSub (lowerS categoryName) (S "dark") then ThemeBucket.dark
  else ThemeBucket.base

structure ThemeSplit where
  light : List (Str × List Str)
  dark : List (Str × List Str)
  base : List (Str × List Str)
deriving DecidableEq

/-- The partition loop of `generateBaseFile` (lines 88–98); only the
`variables` sequence of each category is carried, as in the source. -/
def partitionThemes (cats : Categories) : ThemeSplit :=
  cats.foldl (fun acc kc =>
    match bucketOf kc.1 with
    | ThemeBucket.light => ⟨acc.light ++ [(kc.1, kc.2.vars)], acc.dark, acc.base⟩
    | ThemeBucket.dark => ⟨acc.light, acc.dark ++ [(kc.1, kc.2.vars)], acc.base⟩
    | ThemeBucket.base => ⟨acc.light, acc.dark, acc.base ++ [(kc.1, kc.2.vars)]⟩)
    ⟨[], [], []⟩

/-! ## Stylesheet emission -/

/-- A single-quote character, spliced into the generated `@import`
lines. -/
def apos : Str := [Char.ofNat 39]

/-- `generateVariablesFile` (source lines 113–137), as content. -/
def generateVariablesFileContent (categories : List (Str × List Str)) : Str :=
  let header := S "// Design Tokens - Base CSS Variables\n// Automatically generated from Figma tokens\n// Theme-independent tokens\n\n:root \x7b\n"
  let body := concatAll (categories.map (fun kc =>
    if kc.2.length > 0 then
      S "\n  // " ++ capFirst kc.1 ++ S " tokens\n" ++
        concatAll (kc.2.map (fun v => S "  " ++ v ++ ['\n']))
    else []))
  globalFixReferences (header ++ body ++ S "\x7d\n")

def removeLightDarkF : Nat → Str → Str
  | _, [] => []
  | 0, s => s
  | fuel + 1, c :: rest =>
    if lowerS ((c :: rest).take 5) = S "light" then removeLightDarkF fuel ((c :: rest).drop 5)
    else if lowerS ((c :: rest).take 4) = S "dark" then removeLightDarkF fuel ((c :: rest).drop 4)
    else c :: removeLightDarkF fuel rest

/-- `categoryName.replace(/light|dark/gi, "")`: global, case-insensitive
removal, `light` tried before `dark` at each position. -/
def removeLightDark (s : Str) : Str := removeLightDarkF s.length s

/-- `variable.replace(/(-light|-dark)(?=:)/, "")`: first occurrence
only; the look-ahead `:` is not consumed. -/
def cleanThemeVar : Str → Str
  | [] => []
  | c :: rest =>
    if (S "-light:").isPrefixOf (c :: rest) then (c :: rest).drop 6
    else if (S "-dark:").isPrefixOf (c :: rest) then (c :: rest).drop 5
    else c :: cleanThemeVar rest

/-- `generateThemeFile` (source lines 139–185), as content. -/
def generateThemeFileContent (themeName : Str) (categories : List (Str × List Str)) : Str :=
  let header := S "// Design Tokens - " ++ capFirst themeName ++
    S " Theme\n// Automatically generated from Figma tokens\n\n@import " ++ apos ++
    S "variables" ++ apos ++ S ";\n\n"
  let opener := if themeName = S "light" then S ":root \x7b\n" else '.' :: themeName ++ S " \x7b\n"
  let body := concatAll (categories.map (fun kc =>
    if kc.2.length > 0 then
      S "\n  // " ++ capFirst (jsTrim (removeLightDark kc.1)) ++ S " tokens\n" ++
        concatAll (kc.2.map (fun v => S "  " ++ cleanThemeVar v ++ ['\n']))
    else []))
  globalFixReferences (header ++ opener ++ body ++ S "\x7d\n")

/-- `generateBaseFile` (source lines 75–111): the base variables
document and, for each non-empty theme bucket, its theme document. -/
def generateBaseFileOut (cats : Categories) : Str × Option Str × Option Str :=
  let p := partitionThemes cats
  (generateVariablesFileContent p.base,
   if p.light.length > 0 then some (generateThemeFileContent (S "light") p.light) else none,
   if p.dark.length > 0 then some (generateThemeFileContent (S "dark") p.dark) else none)

/-! ## Utility-class generation (source lines 447–609) -/

/-- The utility generators' regex `--([^:]+):` (a slash-delimited
JavaScript literal in the source): first position
with `--` followed by a non-empty colon-free run and a colon. -/
def matchVarName : Str → Option Str
  | [] => none
  | c :: rest =>
    if c = '-' ∧ rest.head? = some '-' then
      let aft := rest.tail
      let nm := aft.takeWhile (fun d => !decide (d = ':'))
      if nm ≠ [] ∧ nm.length < aft.length then some nm
      else matchVarName rest
    else matchVarName rest

/-- `className.match(/\d+$/)`: the name ends with a digit. -/
def endsDigit (s : Str) : Bool :=
  match s.getLast? with
  | some c => isDigit09 c
  | none => false

/-- Whether the pattern `--[^:]*-\d+:` matches starting at this position. -/
def colorNumAt (s : Str) : Bool :=
  match s with
  | '-' :: '-' :: rest =>
    let seg := rest.takeWhile (fun d => !decide (d = ':'))
    let r := seg.reverse
    let ds := r.takeWhile isDigit09
    decide (seg.length < rest.length) && decide (ds ≠ []) &&
      decide ((r.drop ds.length).head? = some '-')
  | _ => false

/-- The `variable.match` test against `--[^:]*-\d+:`. -/
def matchColorNum : Str → Bool
  | [] => false
  | c :: rest => colorNumAt (c :: rest) || matchColorNum rest

/-- `hasColorTokens` (source lines 473–480). -/
def hasColorTokens (vars : List Str) : Bool :=
  vars.any (fun v =>
    containsSub v (S "color") || containsSub v (S "background") || matchColorNum v)

/-- `hasSpacingTokens` (source lines 482–490). -/
def hasSpacingTokens (vars : List Str) : Bool :=
  vars.any (fun v =>
    containsSub v (S "spacing") || containsSub v (S "padding") ||
      containsSub v (S "margin") || containsSub v (S "gap"))

def componentPatterns : List Str :=
  [S "background", S "border", S "hover", S "active", S "focus", S "disabled",
   S "checked", S "selected"]

/-- `isComponentTokens` (source lines 492–506). -/
def isComponentTokens (vars : List Str) : Bool :=
  vars.any (fun v => componentPatterns.any (fun p => containsSub v p))

/-- `generateColorUtilities` (source lines 508–526). -/
def generateColorUtilities (vars : List Str) : Str :=
  concatAll (vars.map (fun v =>
    match matchVarName v with
    | some className =>
      if containsSub className (S "color") || containsSub className (S "background") ||
          endsDigit className then
        S ".text-" ++ className ++ S " \x7b color: var(--" ++ className ++ S "); \x7d\n" ++
          S ".bg-" ++ className ++ S " \x7b background-color: var(--" ++ className ++
          S "); \x7d\n" ++
          S ".border-" ++ className ++ S " \x7b border-color: var(--" ++ className ++
          S "); \x7d\n"
      else []
    | none => []))

/-- `generateSpacingUtilities` (source lines 528–545). -/
def generateSpacingUtilities (vars : List Str) : Str :=
  concatAll (vars.map (fun v =>
    match matchVarName v with
    | some className =>
      if containsSub className (S "spacing") || containsSub className (S "padding") ||
          containsSub className (S "margin") then
        S ".m-" ++ className ++ S " \x7b margin: var(--" ++ className ++ S "); \x7d\n" ++
          S ".p-" ++ className ++ S " \x7b padding: var(--" ++ className ++ S "); \x7d\n"
      else []
    | none => []))

/-- `mapTokenToProperty` (source lines 597–609). -/
def mapTokenToProperty (tokenName : Str) : Option Str :=
  if containsSub tokenName (S "background") then some (S "background")
  else if containsSub tokenName (S "color") && !containsSub tokenName (S "background") then
    some (S "color")
  else if containsSub tokenName (S "border-color") then some (S "border-color")
  else if containsSub tokenName (S "border-radius") then some (S "border-radius")
  else if containsSub tokenName (S "padding") then some (S "padding")
  else if containsSub tokenName (S "margin") then some (S "margin")
  else if containsSub tokenName (S "font-size") then some (S "font-size")
  else if containsSub tokenName (S "font-weight") then some (S "font-weight")
  else if containsSub tokenName (S "line-height") then some (S "line-height")
  else none

/-- In `generateComponentUtilities` the parameter `categoryData` is the
category's `variables` *array*, yet the body reads `categoryData.base`
and `categoryData[state]`: named properties that do not exist on a
JavaScript array, so every such read yields `undefined`. -/
def arrayNamedProp (_a : List Str) (_name : Str) : Option (List Str) := none

def componentStates : List Str :=
  [S "hover", S "active", S "focus", S "disabled", S "checked", S "selected"]

/-- `generateComponentUtilities` (source lines 547–595). -/
def generateComponentUtilities (categoryName : Str) (categoryData : List Str) : Str :=
  let baseVars := (arrayNamedProp categoryData (S "base")).getD []
  let baseRules := concatAll (baseVars.map (fun v =>
    match matchVarName v with
    | some tokenName =>
      match mapTokenToProperty tokenName with
      | some property => S "  " ++ property ++ S ": var(--" ++ tokenName ++ S ");\n"
      | none => []
    | none => []))
  let stateRules := concatAll (componentStates.map (fun state =>
    let stateVars := (arrayNamedProp categoryData state).getD []
    if stateVars.length = 0 then []
    else
      '.' :: categoryName ++ ':' :: state ++ S " \x7b\n" ++
        concatAll (stateVars.map (fun v =>
          match matchVarName v with
          | some tokenName =>
            let baseToken := replaceFirstSub tokenName ('-' :: state)
            match mapTokenToProperty baseToken with
            | some property => S "  " ++ property ++ S ": var(--" ++ tokenName ++ S ");\n"
            | none => []
          | none => [])) ++
        S "\x7d\n\n"))
  S "// " ++ categoryName ++ S " component utilities\n" ++
    '.' :: categoryName ++ S " \x7b\n" ++ S "  // Base styles using tokens\n" ++
    baseRules ++ S "\x7d\n\n" ++ stateRules

/-- The regex `/@mixin ([^{]+)/`: first `@mixin ` followed by a
non-empty brace-free run (no closing brace required). -/
def mixinNameOf : Str → Option Str
  | [] => none
  | c :: rest =>
    if (S "@mixin ").isPrefixOf (c :: rest) then
      let nm := ((c :: rest).drop 7).takeWhile (fun d => !decide (d = '\x7b'))
      if nm ≠ [] then some nm else mixinNameOf rest
    else mixinNameOf rest

/-- `generateBasicUtilities` (source lines 447–471). -/
def generateBasicUtilities (categoryName : Str) (vars mixins : List Str) : Str :=
  let mixApp := concatAll (mixins.map (fun m =>
    match mixinNameOf m with
    | some nm =>
      '.' :: jsTrim nm ++ S " \x7b @include " ++ jsTrim nm ++ S "; \x7d\n"
    | none => []))
  let u1 := mixApp ++
    (if containsSub categoryName (S "color") || hasColorTokens vars then
      generateColorUtilities vars
    else [])
  let u2 := u1 ++
    (if containsSub categoryName (S "spacing") || hasSpacingTokens vars then
      generateSpacingUtilities vars
    else [])
  let u3 := u2 ++
    (if isComponentTokens vars then generateComponentUtilities categoryName vars else [])
  if u3 = [] then S "// No utilities generated for " ++ categoryName ++ ['\n'] else u3

/-- `safeCategoryName` of `generateCategoryFile` / `generateIndexFile`. -/
def safeCategoryName (k : Str) : Str := lowerS (k.map slashToDash)

def componentFilePath (k : Str) : Str := S "components/_" ++ safeCategoryName k ++ S ".scss"

/-- `generateCategoryFile` (source lines 403–445), as content.  The
source writes this content directly; it does not pass it through
`globalFixReferences`. -/
def generateCategoryFileContent (categoryName : Str) (vars mixins : List Str) : Str :=
  let header := S "// " ++ capFirst categoryName ++
    S " Tokens\n// Automatically generated from Figma tokens\n\n@import " ++ apos ++
    S "../base/variables" ++ apos ++ S ";\n\n"
  let themeImport :=
    if containsSub (lowerS categoryName) (S "light") then
      S "@import " ++ apos ++ S "../base/light" ++ apos ++ S ";\n\n"
    else if containsSub (lowerS categoryName) (S "dark") then
      S "@import " ++ apos ++ S "../base/dark" ++ apos ++ S ";\n\n"
    else []
  let mixinsPart :=
    if mixins.length > 0 then
      S "// Mixins\n" ++ concatAll (mixins.map (fun m => m ++ S "\n\n"))
    else []
  header ++ themeImport ++ mixinsPart ++ S "// Utility Classes\n" ++
    generateBasicUtilities categoryName vars mixins

/-- `generateIndexFile` (source lines 612–641), as content; written
directly, with no `globalFixReferences` pass. -/
def generateIndexFileContent (categories : List Str) : Str :=
  S "// Design Tokens - Main Index\n// Automatically generated from Figma tokens\n\n// Base files\n@import " ++
    apos ++ S "base/variables" ++ apos ++ S ";\n@import " ++ apos ++ S "base/light" ++ apos ++
    S ";\n@import " ++ apos ++ S "base/dark" ++ apos ++ S ";\n\n// Component files\n" ++
    concatAll (categories.map (fun c =>
      S "@import " ++ apos ++ S "components/" ++ safeCategoryName c ++ apos ++ S ";\n")) ++
    S "\n// Theme Usage:\n// Add class=\"dark\" to your <html> or <body> element for dark theme\n// Light theme is the default (applies to :root)\n// Example: <body class=\"dark\">\n// \n// For Tailwind CSS compatibility:\n// This works seamlessly with Tailwind" ++
    apos ++ S "s dark mode class strategy\n"

/-- The whole `generateSCSS` run (source lines 377–401): the mapping
from relative output path to written content. -/
def scssOutput (tokens : List (Str × JSValue)) : List (Str × Str) :=
  let cats := categoriesOf tokens
  let p := partitionThemes cats
  [(S "base/_variables.scss", generateVariablesFileContent p.base)] ++
    (if p.light.length > 0 then
      [(S "base/_light.scss", generateThemeFileContent (S "light") p.light)]
    else []) ++
    (if p.dark.length > 0 then
      [(S "base/_dark.scss", generateThemeFileContent (S "dark") p.dark)]
    else []) ++
    cats.map (fun kc =>
      (componentFilePath kc.1, generateCategoryFileContent kc.1 kc.2.vars kc.2.mixins)) ++
    [(S "index.scss", generateIndexFileContent (cats.map Prod.fst))]

/-! ## Claim-side definitions

Vocabulary used by the claim statements: the bucket filters the theme
partition is compared against, the leaf enumeration the flattening is
compared against, and the name extraction used by the round-trip claim.
They restate the claims' notions, not the source. -/

/-- The categories a bucket is expected to hold: those whose key routes
to it, in order, carrying their variables. -/
def bucketPart (b : ThemeBucket) (cats : Categories) : List (Str × List Str) :=
  (cats.filter (fun kc => decide (bucketOf kc.1 = b))).map (fun kc => (kc.1, kc.2.vars))

/-- The leaf tokens of a node's field list, each with its key path from
the node down to the leaf.  Keys that are empty or start with `$` are
metadata and carry no leaves; an entry is a leaf when it passes
`leafTest`, a group when it is a plain object. -/
def leavesOf : JSFields → List (List Str × JSValue)
  | JSFields.nil => []
  | JSFields.cons k v rest =>
    if skipKey k then leavesOf rest
    else if leafTest v then ([k], v) :: leavesOf rest
    else
      match v with
      | JSValue.obj fs => ((leavesOf fs).map (fun p => (k :: p.1, p.2))) ++ leavesOf rest
      | _ => leavesOf rest

/-- One path step of `flattenTokens`: `prefix ? prefix + "-" + key :
key` on the normalized key. -/
def pathStep (pfx : Str) (k : Str) : Str :=
  if pfx = [] then normalizeTokenName k else pfx ++ '-' :: normalizeTokenName k

/-- The normalized path of a leaf: the flattener's fold of `pathStep`
over the key path. -/
def pathJoin (pfx : Str) (ks : List Str) : Str := ks.foldl pathStep pfx

/-- The CSS custom-property declarations one leaf token contributes: none
for a null/undefined resolved value; one per converted property (named
`--path-prop` with a leading `font-` stripped) for a typography token
whose conversion is an object; exactly one `--path: value;` otherwise. -/
def tokenVars (tokenName : Str) (v : JSValue) : List Str :=
  let tokenType := jsOrV (getField v (S "$type")) (getField v (S "type"))
  let tokenValue := jsOrV (getField v (S "$value")) (getField v (S "value"))
  match tokenValue with
  | none => []
  | some tv =>
    if isNullV tv then []
    else
    let conv := postConvert (convertValue tv tokenType) tokenType
    if optTyIs tokenType (S "typography") && typeofObject conv then
      (fieldsToList (objEntries conv)).map (fun f =>
        S "--" ++ tokenName ++ '-' :: replaceFirstSub f.1 (S "font-") ++ S ": " ++
          jsTemplate f.2 ++ S ";")
    else
      [S "--" ++ tokenName ++ S ": " ++ jsTemplate conv ++ S ";"]

/-- The mixin definitions one leaf token contributes (typography only). -/
def tokenMixins (tokenName : Str) (v : JSValue) : List Str :=
  let tokenType := jsOrV (getField v (S "$type")) (getField v (S "type"))
  let tokenValue := jsOrV (getField v (S "$value")) (getField v (S "value"))
  match tokenValue with
  | none => []
  | some tv =>
    if isNullV tv then []
    else
    let conv := postConvert (convertValue tv tokenType) tokenType
    if optTyIs tokenType (S "typography") && typeofObject conv then
      [S "@mixin " ++ tokenName ++ S " \x7b\n" ++
        concatAll ((fieldsToList (objEntries conv)).map (fun f =>
          S "  " ++ f.1 ++ S ": " ++ jsTemplate f.2 ++ S ";\n")) ++ S "\x7d"]
    else []

/-- The declared variable name of one output line, when the trimmed line
is a `--name: …` declaration. -/
def declOfLine (l : Str) : Option Str :=
  let t := jsTrim l
  if (S "--").isPrefixOf t then some ((t.drop 2).takeWhile (fun d => !decide (d = ':')))
  else none

/-- The variable names declared by an output document. -/
def declNames (content : Str) : List Str :=
  (splitLines content).filterMap declOfLine

/-- Whether a document's text references `var(--name)`. -/
def refersVar (content : Str) (n : Str) : Bool :=
  containsSub content (S "var(--" ++ n ++ [')'])

/-- A well-formed CSS name: non-empty, over `[a-z0-9-]`. -/
def safeNameB (n : Str) : Bool := decide (n ≠ []) && n.all isSafeChar

/-- The shape of a variable line as `flattenTokens` emits it. -/
def wfVarLine (v : Str) : Prop :=
  ∃ nm val, v = S "--" ++ nm ++ S ": " ++ val ++ [';'] ∧ safeNameB nm = true ∧ '\n' ∉ val

/-- The shape of a variable line as the round-trip claim assumes it: a
declaration of a safe name whose value holds no colon and no newline. -/
def strictVarLine (v : Str) : Prop :=
  ∃ nm val, v = S "--" ++ nm ++ S ": " ++ val ++ [';'] ∧ safeNameB nm = true ∧
    ':' ∉ val ∧ '\n' ∉ val

/-- The shape of a mixin string as `flattenTokens` emits it. -/
def wfMixin (m : Str) : Prop :=
  ∃ nm body, m = S "@mixin " ++ nm ++ S " \x7b\n" ++ body ∧ safeNameB nm = true

/-- A well-formed category entry: lower-case safe key, well-formed
variable lines and mixins. -/
def wfCat (kc : Str × Category) : Prop :=
  (kc.1 ≠ [] ∧ kc.1.all isSafeChar = true) ∧
    (∀ v ∈ kc.2.vars, wfVarLine v) ∧ (∀ m ∈ kc.2.mixins, wfMixin m)

/-- The name suffixes the theme emitter strips before the colon. -/
def endsLightDark (n : Str) : Bool :=
  (S "-light").isSuffixOf n || (S "-dark").isSuffixOf n

/-! ### Sample inputs for the concrete counterexamples and witnesses -/

/-- A typography leaf token (`headingLarge`). -/
def typoSample : JSValue :=
  JSValue.obj (JSFields.cons (S "type") (JSValue.str (S "typography"))
    (JSFields.cons (S "value") (JSValue.obj
      (JSFields.cons (S "fontFamily") (JSValue.str (S "Arial"))
        (JSFields.cons (S "fontSize") (JSValue.num 16)
          (JSFields.cons (S "fontWeight") (JSValue.num 700)
            (JSFields.cons (S "lineHeight") (JSValue.num 2)
              (JSFields.cons (S "letterSpacing") (JSValue.num 2) JSFields.nil))))))
      JSFields.nil))

/-- A color leaf token whose key normalizes to a `-light`-suffixed name. -/
def lightColorSample : JSValue :=
  JSValue.obj (JSFields.cons (S "type") (JSValue.str (S "color"))
    (JSFields.cons (S "value") (JSValue.str (S "#fff")) JSFields.nil))

/-- A one-category document: `themeLight.textColorLight`. -/
def lightDoc : List (Str × JSValue) :=
  [(S "themeLight", JSValue.obj (JSFields.cons (S "textColorLight") lightColorSample
    JSFields.nil))]

/-- A one-leaf typography document: `type.headingLarge`. -/
def c1doc : JSValue :=
  JSValue.obj (JSFields.cons (S "headingLarge") typoSample JSFields.nil)

/-- A leaf token whose resolved value is `null`. -/
def nullLeafSample : JSValue :=
  JSValue.obj (JSFields.cons (S "type") (JSValue.str (S "color"))
    (JSFields.cons (S "value") JSValue.null JSFields.nil))

/-- A typography token whose `fontFamily` is an unresolved reference. -/
def c4doc : List (Str × JSValue) :=
  [(S "type", JSValue.obj (JSFields.cons (S "heading")
    (JSValue.obj (JSFields.cons (S "type") (JSValue.str (S "typography"))
      (JSFields.cons (S "value") (JSValue.obj
        (JSFields.cons (S "fontFamily") (JSValue.str (S "\x7bfont.family\x7d"))
          JSFields.nil))
        JSFields.nil)))
    JSFields.nil))]

/-- Every opening parenthesis of a document opens a reference
`var(--nm)` to a name of `d`: however the text is split at a `(`, what
follows starts with `--nm)` for some `nm` in `d`. -/
def ParenOK (d : List Str) (s : Str) : Prop :=
  ∀ a b, s = a ++ '(' :: b → ∃ nm, nm ∈ d ∧ (S "--" ++ nm ++ [')']) <+: b

/-- The name-level effect of the theme emitters: a trailing `-light`
slash `-dark` is removed (the `(?=:)` look-ahead of the source regex
binds the strip to the end of the name). -/
def stripThemeSuffix (n : Str) : Str :=
  if (S "-light").isSuffixOf n then n.take (n.length - 6)
  else if (S "-dark").isSuffixOf n then n.take (n.length - 5)
  else n

/-!
====================================================================
## Theorems
====================================================================
-/

/-! ### Groundwork on characters -/

theorem safe_toNat {c : Char} (h : isSafeChar c = true) :
    (97 ≤ c.toNat ∧ c.toNat ≤ 122) ∨ (48 ≤ c.toNat ∧ c.toNat ≤ 57) ∨ c.toNat = 45 := by
  simp only [isSafeChar, isLowerAZ, isDigit09, Bool.or_eq_true, decide_eq_true_eq] at h
  rcases h with (h | h) | h
  · exact Or.inl h
  · exact Or.inr (Or.inl h)
  · subst h
    exact Or.inr (Or.inr (by decide))

theorem safe_not_upper {c : Char} (h : isSafeChar c = true) : isUpperAZ c = false := by
  have hn := safe_toNat h
  simp only [isUpperAZ, decide_eq_false_iff_not, not_and, not_le]
  omega

theorem jsLowerChar_of_safe {c : Char} (h : isSafeChar c = true) : jsLowerChar c = c := by
  unfold jsLowerChar
  rw [safe_not_upper h]
  simp

theorem safe_not_ws {c : Char} (h : isSafeChar c = true) : isJsWs c = false := by
  have hn := safe_toNat h
  simp only [isJsWs, decide_eq_false_iff_not]
  omega

/-! ### The normalization pipeline is the identity on safe, hyphen-trimmed
strings -/

theorem normStep1_of_safe : ∀ s : Str, (∀ c ∈ s, isSafeChar c = true) → normStep1 s = s
  | [], _ => by simp [normStep1]
  | [c], _ => by simp [normStep1]
  | a :: b :: rest, h => by
    unfold normStep1
    rw [if_neg, normStep1_of_safe (b :: rest) (fun c hc => h c (List.mem_cons_of_mem a hc))]
    rw [safe_not_upper (h b (by simp))]
    simp
termination_by s => s.length

theorem normStep2_of_safe : ∀ s : Str, (∀ c ∈ s, isSafeChar c = true) → normStep2 s = s
  | [], _ => rfl
  | c :: rest, h => by
    unfold normStep2
    rw [safe_not_upper (h c (by simp))]
    simp only [Bool.false_eq_true, if_false]
    rw [normStep2_of_safe rest (fun d hd => h d (List.mem_cons_of_mem c hd))]

theorem normStep3_of_safe : ∀ s : Str, (∀ c ∈ s, isSafeChar c = true) → normStep3 s = s
  | [], _ => rfl
  | c :: rest, h => by
    unfold normStep3
    rw [safe_not_ws (h c (by simp))]
    simp only [Bool.false_eq_true, if_false]
    rw [normStep3_of_safe rest (fun d hd => h d (List.mem_cons_of_mem c hd))]

theorem normStep4_of_safe (s : Str) (h : ∀ c ∈ s, isSafeChar c = true) : normStep4 s = s := by
  unfold normStep4
  exact List.filter_eq_self.mpr h

theorem normStep6_of_safe (s : Str) (h : ∀ c ∈ s, isSafeChar c = true) : normStep6 s = s := by
  unfold normStep6
  induction s with
  | nil => rfl
  | cons c rest ih =>
    simp only [List.map_cons]
    rw [jsLowerChar_of_safe (h c (by simp)), ih (fun d hd => h d (List.mem_cons_of_mem c hd))]

theorem dropWhile_head_false {p : Char → Bool} : ∀ {s : Str} {c : Char},
    (s.dropWhile p).head? = some c → p c = false := by
  intro s
  induction s with
  | nil => intro c h; simp [List.dropWhile] at h
  | cons a rest ih =>
    intro c h
    rw [List.dropWhile_cons] at h
    by_cases ha : p a = true
    · rw [if_pos ha] at h
      exact ih h
    · rw [if_neg ha] at h
      simp only [List.head?_cons, Option.some.injEq] at h
      subst h
      exact Bool.eq_false_iff.mpr ha

theorem dropWhile_of_head_false {p : Char → Bool} : ∀ {s : Str},
    ((s.head?.map p).getD false) = false → s.dropWhile p = s := by
  intro s h
  cases s with
  | nil => rfl
  | cons a rest =>
    simp only [List.head?_cons, Option.map_some', Option.getD_some] at h
    rw [List.dropWhile_cons, if_neg (by simp [h])]

/-- `normStep5` output: characters come from the input. -/
theorem mem_normStep5 {c : Char} {s : Str} (h : c ∈ normStep5 s) : c ∈ s := by
  unfold normStep5 at h
  rw [List.mem_reverse] at h
  have h2 := List.Sublist.mem h (List.dropWhile_sublist isDashB)
  rw [List.mem_reverse] at h2
  exact List.Sublist.mem h2 (List.dropWhile_sublist isDashB)

theorem mem_normStep4 {c : Char} {s : Str} (h : c ∈ normStep4 s) : isSafeChar c = true :=
  (List.mem_filter.mp h).2

/-- The normalizer's output uses only `[a-z0-9-]`. -/
theorem normalize_safe {c : Char} {s : Str} (h : c ∈ normalizeTokenName s) :
    isSafeChar c = true := by
  unfold normalizeTokenName normStep6 at h
  rw [List.mem_map] at h
  obtain ⟨d, hd, hdc⟩ := h
  have hsafe : isSafeChar d = true := mem_normStep4 (mem_normStep5 hd)
  rw [← hdc, jsLowerChar_of_safe hsafe]
  exact hsafe

theorem dropWhile_idem {p : Char → Bool} {l : Str} :
    (l.dropWhile p).dropWhile p = l.dropWhile p := by
  rcases h : l.dropWhile p with _ | ⟨a, t⟩
  · rfl
  · have ha : p a = false := dropWhile_head_false (by rw [h]; rfl)
    rw [List.dropWhile_cons, if_neg (by simp [ha])]

theorem dropWhile_eq_self_of_head {p : Char → Bool} {l : Str}
    (h : ∀ c, l.head? = some c → p c = false) : l.dropWhile p = l := by
  cases l with
  | nil => rfl
  | cons a t => rw [List.dropWhile_cons, if_neg (by simp [h a rfl])]

theorem normStep5_head_not_dash {c : Char} {s : Str}
    (h : (normStep5 s).head? = some c) : isDashB c = false := by
  unfold normStep5 at h
  rw [List.head?_reverse] at h
  obtain ⟨pre, hpre⟩ := List.dropWhile_suffix (l := (s.dropWhile isDashB).reverse) isDashB
  have hne : ((s.dropWhile isDashB).reverse.dropWhile isDashB) ≠ [] := by
    intro hnil
    rw [hnil] at h
    simp at h
  have hx : ((s.dropWhile isDashB).reverse).getLast? = some c := by
    rw [← hpre, List.getLast?_append_of_ne_nil pre hne]
    exact h
  rw [List.getLast?_reverse] at hx
  exact dropWhile_head_false hx

theorem normStep5_idem {s : Str} : normStep5 (normStep5 s) = normStep5 s := by
  have h1 : (normStep5 s).dropWhile isDashB = normStep5 s :=
    dropWhile_eq_self_of_head (fun c hc => normStep5_head_not_dash hc)
  have hrev : (normStep5 s).reverse = (s.dropWhile isDashB).reverse.dropWhile isDashB := by
    unfold normStep5
    rw [List.reverse_reverse]
  have h2 : (normStep5 s).reverse.dropWhile isDashB = (normStep5 s).reverse := by
    rw [hrev]
    exact dropWhile_idem
  show (((normStep5 s).dropWhile isDashB).reverse.dropWhile isDashB).reverse = normStep5 s
  rw [h1, h2, List.reverse_reverse]

theorem normStep5_of_step6_eq {s : Str}
    (hsafe : ∀ c ∈ normStep5 s, isSafeChar c = true) :
    normStep6 (normStep5 s) = normStep5 s :=
  normStep6_of_safe _ hsafe

/-- C6 helper: the whole pipeline is the identity on any output of the
normalizer. -/
theorem normalize_fix (s : Str) :
    normalizeTokenName (normalizeTokenName s) = normalizeTokenName s := by
  have hsafe : ∀ c ∈ normalizeTokenName s, isSafeChar c = true := fun c hc => normalize_safe hc
  set r := normalizeTokenName s with hr
  have hr5 : r = normStep5 (normStep4 (normStep3 (normStep2 (normStep1 s)))) := by
    rw [hr]
    unfold normalizeTokenName
    exact normStep6_of_safe _ (fun c hc => mem_normStep4 (mem_normStep5 hc))
  unfold normalizeTokenName
  rw [normStep1_of_safe r hsafe, normStep2_of_safe r hsafe, normStep3_of_safe r hsafe,
    normStep4_of_safe r hsafe]
  rw [hr5, normStep5_idem, ← hr5]
  exact normStep6_of_safe r hsafe

/-- C6: `normalizeTokenName` is idempotent on every string. -/
theorem c6_normalize_idempotent (x : Str) :
    normalizeTokenName (normalizeTokenName x) = normalizeTokenName x :=
  normalize_fix x

/-! ### Computation lemmas for `replaceRefs` and `containsSub` -/

/-- `replaceRefsF` does not depend on the fuel once it covers the
string's length. -/
theorem replaceRefsF_congr : ∀ f g s, s.length ≤ f → s.length ≤ g →
    replaceRefsF f s = replaceRefsF g s := by
  intro f
  induction f with
  | zero =>
    intro g s hf _
    have hs : s = [] := by
      cases s with
      | nil => rfl
      | cons c t => simp at hf
    subst hs
    cases g <;> rfl
  | succ f ih =>
    intro g s hf hg
    cases s with
    | nil => cases g <;> rfl
    | cons c rest =>
      cases g with
      | zero => simp at hg
      | succ g2 =>
        simp only [List.length_cons, Nat.add_le_add_iff_right] at hf hg
        simp only [replaceRefsF]
        by_cases hc : c = '\x7b'
        · rcases hbr : breakRBrace rest with _ | ⟨inner, after⟩
          · simp [hc, hbr, ih g2 rest hf hg]
          · rcases after with ⟨after, hlen⟩
            by_cases hinner : inner = []
            · simp [hc, hbr, hinner, ih g2 rest hf hg]
            · simp [hc, hbr, hinner, ih g2 rest hf hg,
                ih g2 after (le_of_lt (lt_of_lt_of_le hlen hf))
                  (le_of_lt (lt_of_lt_of_le hlen hg))]
        · simp [hc, ih g2 rest hf hg]

theorem replaceRefsF_eq {fuel : Nat} {s : Str} (h : s.length ≤ fuel) :
    replaceRefsF fuel s = replaceRefs s :=
  replaceRefsF_congr fuel s.length s h (le_refl _)

theorem replaceRefs_nil : replaceRefs [] = [] := rfl

theorem replaceRefs_cons_other {c : Char} (rest : Str) (h : c ≠ '\x7b') :
    replaceRefs (c :: rest) = c :: replaceRefs rest := by
  show replaceRefsF (c :: rest).length (c :: rest) = _
  simp only [List.length_cons, replaceRefsF, if_neg h]
  rfl

theorem replaceRefs_cons_brace_none {rest : Str} (h : breakRBrace rest = none) :
    replaceRefs ('\x7b' :: rest) = '\x7b' :: replaceRefs rest := by
  show replaceRefsF ('\x7b' :: rest).length ('\x7b' :: rest) = _
  simp only [List.length_cons, replaceRefsF, h]
  simp
  rfl

theorem replaceRefs_cons_brace_empty {rest : Str}
    {after : { b : Str // b.length < rest.length }}
    (h : breakRBrace rest = some ([], after)) :
    replaceRefs ('\x7b' :: rest) = '\x7b' :: replaceRefs rest := by
  show replaceRefsF ('\x7b' :: rest).length ('\x7b' :: rest) = _
  simp only [List.length_cons, replaceRefsF, h]
  simp
  rfl

theorem replaceRefs_cons_brace_match {rest inner : Str}
    {after : { b : Str // b.length < rest.length }}
    (h : breakRBrace rest = some (inner, after)) (hne : inner ≠ []) :
    replaceRefs ('\x7b' :: rest) =
      S "var(--" ++ normalizeReferencePath (jsTrim inner) ++ ')' :: replaceRefs after.1 := by
  show replaceRefsF ('\x7b' :: rest).length ('\x7b' :: rest) = _
  simp only [List.length_cons, replaceRefsF, h]
  simp [hne]
  rw [replaceRefsF_eq (le_of_lt after.2)]

theorem hasRefF_congr : ∀ f g s, s.length ≤ f → s.length ≤ g →
    hasRefF f s = hasRefF g s := by
  intro f
  induction f with
  | zero =>
    intro g s hf _
    have hs : s = [] := by
      cases s with
      | nil => rfl
      | cons c t => simp at hf
    subst hs
    cases g <;> rfl
  | succ f ih =>
    intro g s hf hg
    cases s with
    | nil => cases g <;> rfl
    | cons c rest =>
      cases g with
      | zero => simp at hg
      | succ g2 =>
        simp only [List.length_cons, Nat.add_le_add_iff_right] at hf hg
        simp only [hasRefF]
        by_cases hc : c = '\x7b'
        · rcases hbr : breakRBrace rest with _ | ⟨inner, after⟩
          · simp [hc, hbr, ih g2 rest hf hg]
          · rcases after with ⟨after, hlen⟩
            by_cases hinner : inner = []
            · simp [hc, hbr, hinner, ih g2 rest hf hg]
            · simp [hc, hbr, hinner]
        · simp [hc, ih g2 rest hf hg]

theorem hasRef_nil : hasRef [] = false := rfl

theorem hasRef_cons_other {c : Char} (rest : Str) (h : c ≠ '\x7b') :
    hasRef (c :: rest) = hasRef rest := by
  show hasRefF (c :: rest).length (c :: rest) = _
  simp only [List.length_cons, hasRefF, if_neg h]
  rfl

theorem hasRef_cons_brace_none {rest : Str} (h : breakRBrace rest = none) :
    hasRef ('\x7b' :: rest) = hasRef rest := by
  show hasRefF ('\x7b' :: rest).length ('\x7b' :: rest) = _
  simp only [List.length_cons, hasRefF, h]
  simp
  rfl

theorem hasRef_cons_brace_empty {rest : Str}
    {after : { b : Str // b.length < rest.length }}
    (h : breakRBrace rest = some ([], after)) :
    hasRef ('\x7b' :: rest) = hasRef rest := by
  show hasRefF ('\x7b' :: rest).length ('\x7b' :: rest) = _
  simp only [List.length_cons, hasRefF, h]
  simp
  rfl

theorem hasRef_cons_brace_match {rest inner : Str}
    {after : { b : Str // b.length < rest.length }}
    (h : breakRBrace rest = some (inner, after)) (hne : inner ≠ []) :
    hasRef ('\x7b' :: rest) = true := by
  show hasRefF ('\x7b' :: rest).length ('\x7b' :: rest) = _
  simp only [List.length_cons, hasRefF, h]
  simp [hne]

theorem containsSub_nil (needle : Str) : containsSub [] needle = needle.isPrefixOf [] := by
  rw [containsSub]

theorem containsSub_cons (c : Char) (t needle : Str) :
    containsSub (c :: t) needle = (needle.isPrefixOf (c :: t) || containsSub t needle) := by
  rw [containsSub.eq_def]

theorem containsSub_of_tail {hay needle : Str} {c : Char}
    (h : containsSub hay needle = true) : containsSub (c :: hay) needle = true := by
  rw [containsSub_cons]
  simp [h]

theorem containsSub_of_prefixOf {hay needle : Str} (h : needle <+: hay) :
    containsSub hay needle = true := by
  cases hay with
  | nil => rw [containsSub_nil]; simp [List.isPrefixOf_iff_prefix, h]
  | cons c t => rw [containsSub_cons]; simp [List.isPrefixOf_iff_prefix, h]

/-- `containsSub` is exactly substring containment. -/
theorem containsSub_iff {hay needle : Str} :
    containsSub hay needle = true ↔ ∃ a b, hay = a ++ needle ++ b := by
  induction hay with
  | nil =>
    rw [containsSub_nil]
    simp only [List.isPrefixOf_iff_prefix, List.prefix_nil]
    constructor
    · intro h
      exact ⟨[], [], by simp [h]⟩
    · rintro ⟨a, b, hab⟩
      cases a <;> cases needle <;> simp_all
  | cons c t ih =>
    rw [containsSub_cons]
    simp only [Bool.or_eq_true, List.isPrefixOf_iff_prefix]
    constructor
    · rintro (h | h)
      · obtain ⟨b, hb⟩ := h
        exact ⟨[], b, by simpa using hb.symm⟩
      · obtain ⟨a, b, hab⟩ := ih.mp h
        exact ⟨c :: a, b, by simp [hab]⟩
    · rintro ⟨a, b, hab⟩
      cases a with
      | nil =>
        left
        exact ⟨b, by simpa using hab.symm⟩
      | cons a0 a' =>
        right
        apply ih.mpr
        have h2 : t = a' ++ needle ++ b := by
          simpa using congrArg List.tail hab
        exact ⟨a', b, h2⟩

theorem mem_of_containsSub {hay needle : Str} {c : Char}
    (h : containsSub hay needle = true) (hc : c ∈ needle) : c ∈ hay := by
  obtain ⟨a, b, hab⟩ := containsSub_iff.mp h
  subst hab
  simp [hc]

/-! ### C5: the calc-wrapping rule of `processStringReferences` -/

theorem needsCalc_eq (s : Str) (ty : Option JSValue) :
    needsCalc s ty =
      (s.any mathChar && containsSub s (S "var(--") && !(S "calc(").isPrefixOf s) := by
  unfold needsCalc
  cases h1 : s.any mathChar <;> cases h2 : containsSub s (S "var(--") <;>
    cases h3 : (S "calc(").isPrefixOf s <;> simp [h1, h2, h3]

theorem processStringReferences_eq (s : Str) (ty : Option JSValue) :
    processStringReferences s ty =
      if needsCalc (replaceRefs s) ty then S "calc(" ++ replaceRefs s ++ [')']
      else replaceRefs s := rfl

/-- C5: for the string token value `"{spacing.sm} + 4"` and any token
type, conversion returns exactly `"calc(var(--spacing-sm) + 4)"`; and in
general a string is wrapped in `calc(...)` after placeholder
substitution if and only if the substituted string contains one of
`+ - * /`, contains a `var(--` call, and does not already begin with
`calc(`. -/
theorem c5_calc_wrapping :
    (∀ ty : Option JSValue,
      convertValue (JSValue.str (S "\x7bspacing.sm\x7d + 4")) ty =
        JSValue.str (S "calc(var(--spacing-sm) + 4)")) ∧
    (∀ s : Str, ∀ ty : Option JSValue,
      processStringReferences s ty = S "calc(" ++ replaceRefs s ++ [')'] ↔
        ((replaceRefs s).any mathChar = true ∧
          containsSub (replaceRefs s) (S "var(--") = true ∧
          (S "calc(").isPrefixOf (replaceRefs s) = false)) := by
  constructor
  · intro ty
    rfl
  · intro s ty
    rw [processStringReferences_eq, needsCalc_eq]
    cases hb : ((replaceRefs s).any mathChar && containsSub (replaceRefs s) (S "var(--") &&
        !(S "calc(").isPrefixOf (replaceRefs s)) with
    | true =>
      simp only [Bool.and_eq_true, Bool.not_eq_true', Bool.and_assoc] at hb
      simp [hb.1, hb.2.1, hb.2.2]
    | false =>
      simp only [Bool.false_eq_true, if_false]
      constructor
      · intro h
        exfalso
        have hlen := congrArg List.length h
        simp [List.length_append, S] at hlen
        omega
      · rintro ⟨h1, h2, h3⟩
        exfalso
        simp [h1, h2, h3] at hb

/-! ### C9: a lone placeholder still gets calc-wrapped -/

/-- If the reference regex matches, the substituted string contains a
`var(--` call. -/
theorem hasRef_contains_var : ∀ s : Str, hasRef s = true →
    containsSub (replaceRefs s) (S "var(--") = true
  | [], h => by rw [hasRef_nil] at h; exact absurd h (by simp)
  | c :: rest, h => by
    by_cases hc : c = '\x7b'
    · subst hc
      rcases hbr : breakRBrace rest with _ | ⟨inner, after⟩
      · rw [hasRef_cons_brace_none hbr] at h
        rw [replaceRefs_cons_brace_none hbr]
        exact containsSub_of_tail (hasRef_contains_var rest h)
      · by_cases hi : inner = []
        · subst hi
          rw [hasRef_cons_brace_empty hbr] at h
          rw [replaceRefs_cons_brace_empty hbr]
          exact containsSub_of_tail (hasRef_contains_var rest h)
        · rw [replaceRefs_cons_brace_match hbr hi]
          apply containsSub_of_prefixOf
          rw [List.append_assoc]
          exact List.prefix_append _ _
    · rw [hasRef_cons_other rest hc] at h
      rw [replaceRefs_cons_other rest hc]
      exact containsSub_of_tail (hasRef_contains_var rest h)
termination_by s => s.length

/-- A prefix of the substituted string that avoids `v` and `{` was
already a prefix of the original string. -/
theorem prefix_of_replaceRefs : ∀ (s p : Str), 'v' ∉ p → '\x7b' ∉ p →
    p <+: replaceRefs s → p <+: s
  | [], p, _, _, h => by rwa [replaceRefs_nil] at h
  | c :: rest, p, hv, hb, h => by
    by_cases hc : c = '\x7b'
    · subst hc
      rcases hbr : breakRBrace rest with _ | ⟨inner, after⟩
      · rw [replaceRefs_cons_brace_none hbr] at h
        cases p with
        | nil => exact List.nil_prefix
        | cons q p2 =>
          rw [List.cons_prefix_cons] at h
          exact absurd (by rw [← h.1]; exact List.mem_cons_self q p2) hb
      · by_cases hi : inner = []
        · subst hi
          rw [replaceRefs_cons_brace_empty hbr] at h
          cases p with
          | nil => exact List.nil_prefix
          | cons q p2 =>
            rw [List.cons_prefix_cons] at h
            exact absurd (by rw [← h.1]; exact List.mem_cons_self q p2) hb
        · rw [replaceRefs_cons_brace_match hbr hi] at h
          cases p with
          | nil => exact List.nil_prefix
          | cons q p2 =>
            exfalso
            have hS : S "var(--" ++ normalizeReferencePath (jsTrim inner) ++
                  ')' :: replaceRefs after.1 =
                'v' :: (S "ar(--" ++ normalizeReferencePath (jsTrim inner) ++
                  ')' :: replaceRefs after.1) := rfl
            rw [hS, List.cons_prefix_cons] at h
            exact hv (by rw [← h.1]; exact List.mem_cons_self q p2)
    · rw [replaceRefs_cons_other rest hc] at h
      cases p with
      | nil => exact List.nil_prefix
      | cons q p2 =>
        rw [List.cons_prefix_cons] at h
        rw [h.1]
        rw [List.cons_prefix_cons]
        exact ⟨rfl, prefix_of_replaceRefs rest p2
          (fun hm => hv (List.mem_cons_of_mem q hm))
          (fun hm => hb (List.mem_cons_of_mem q hm)) h.2⟩
termination_by s _ => s.length

/-- C9: a string holding at least one `{path}` placeholder, with no
existing `var(--` call and not beginning with `calc(`, always comes back
wrapped in `calc(...)` — the substituted `var(--…)` text itself
satisfies the arithmetic-operator test. -/
theorem c9_reference_always_calc (s : Str) (ty : Option JSValue)
    (h1 : hasRef s = true)
    (_h2 : containsSub s (S "var(--") = false)
    (h3 : (S "calc(").isPrefixOf s = false) :
    processStringReferences s ty = S "calc(" ++ replaceRefs s ++ [')'] := by
  have hvar := hasRef_contains_var s h1
  have hmath : (replaceRefs s).any mathChar = true :=
    List.any_eq_true.mpr ⟨'-', mem_of_containsSub hvar (by decide), by decide⟩
  have hcalc : (S "calc(").isPrefixOf (replaceRefs s) = false := by
    cases hcp : (S "calc(").isPrefixOf (replaceRefs s) with
    | false => rfl
    | true =>
      exfalso
      have hpre := prefix_of_replaceRefs s (S "calc(") (by decide) (by decide)
        (List.isPrefixOf_iff_prefix.mp hcp)
      rw [← List.isPrefixOf_iff_prefix] at hpre
      rw [h3] at hpre
      exact absurd hpre (by simp)
  rw [processStringReferences_eq, needsCalc_eq, hmath, hvar, hcalc]
  simp

theorem c9_reference_always_calc_witness :
    hasRef (S "\x7bspacing.sm\x7d") = true ∧
    containsSub (S "\x7bspacing.sm\x7d") (S "var(--") = false ∧
    (S "calc(").isPrefixOf (S "\x7bspacing.sm\x7d") = false ∧
    processStringReferences (S "\x7bspacing.sm\x7d") none = S "calc(var(--spacing-sm))" :=
  ⟨by decide, by decide, by decide,
    (c9_reference_always_calc (S "\x7bspacing.sm\x7d") none (by decide) (by decide)
      (by decide)).trans (by decide)⟩

/-! ### C3: the component-state utilities are dead code -/

/-- C3: for a category whose variables match the component patterns
(here `--button-background` and its `-hover` variant), the component
utility generator runs, yet emits only an empty base rule — no property
declaration and no `:hover` (or any other state) rule, because it reads
`base` and the state names as properties of the `variables` array, which
are all `undefined`.  The `mapTokenToProperty` table is never consulted. -/
theorem c3_component_states_dead :
    isComponentTokens
        [S "--button-background: blue;", S "--button-background-hover: red;"] = true ∧
    generateComponentUtilities (S "button")
        [S "--button-background: blue;", S "--button-background-hover: red;"] =
      S "// button component utilities\n.button \x7b\n  // Base styles using tokens\n\x7d\n\n" := by
  constructor
  · decide
  · decide

/-! ### C8: theme partitioning -/

theorem partitionThemes_go (cats : Categories) : ∀ acc : ThemeSplit,
    cats.foldl (fun acc kc =>
      match bucketOf kc.1 with
      | ThemeBucket.light => ⟨acc.light ++ [(kc.1, kc.2.vars)], acc.dark, acc.base⟩
      | ThemeBucket.dark => ⟨acc.light, acc.dark ++ [(kc.1, kc.2.vars)], acc.base⟩
      | ThemeBucket.base => ⟨acc.light, acc.dark, acc.base ++ [(kc.1, kc.2.vars)]⟩) acc =
      ⟨acc.light ++ bucketPart ThemeBucket.light cats,
       acc.dark ++ bucketPart ThemeBucket.dark cats,
       acc.base ++ bucketPart ThemeBucket.base cats⟩ := by
  induction cats with
  | nil => intro acc; simp [bucketPart]
  | cons kc rest ih =>
    intro acc
    rw [List.foldl_cons]
    rcases hb : bucketOf kc.1 with _ | _ | _ <;>
      simp only [hb, ih, bucketPart, List.filter_cons, hb, decide_eq_true_eq] <;>
      simp [bucketPart, List.append_assoc]

/-- C8: the theme partition tests `"light"` before `"dark"` on the
lower-cased category name: a name containing `"light"` routes to the
light bucket whatever else it contains, a name containing only `"dark"`
to the dark bucket, and a name containing neither to the base bucket;
`partitionThemes` fills each bucket with exactly the categories so
routed, in order. -/
theorem c8_theme_partition :
    (∀ name : Str, containsSub (lowerS name) (S "light") = true →
      bucketOf name = ThemeBucket.light) ∧
    (∀ name : Str, containsSub (lowerS name) (S "light") = false →
      containsSub (lowerS name) (S "dark") = true → bucketOf name = ThemeBucket.dark) ∧
    (∀ name : Str, containsSub (lowerS name) (S "light") = false →
      containsSub (lowerS name) (S "dark") = false → bucketOf name = ThemeBucket.base) ∧
    (∀ cats : Categories, partitionThemes cats =
      ⟨bucketPart ThemeBucket.light cats, bucketPart ThemeBucket.dark cats,
       bucketPart ThemeBucket.base cats⟩) := by
  refine ⟨?_, ?_, ?_, ?_⟩
  · intro name h
    unfold bucketOf
    rw [h]
    simp
  · intro name h1 h2
    unfold bucketOf
    rw [h1, h2]
    simp
  · intro name h1 h2
    unfold bucketOf
    rw [h1, h2]
    simp
  · intro cats
    unfold partitionThemes
    rw [partitionThemes_go cats ⟨[], [], []⟩]
    simp

theorem c8_theme_partition_witness :
    bucketOf (S "twilightDark") = ThemeBucket.light ∧
    bucketOf (S "Dark Mode") = ThemeBucket.dark ∧
    bucketOf (S "spacing") = ThemeBucket.base :=
  ⟨(c8_theme_partition.1 (S "twilightDark") (by decide)),
   (c8_theme_partition.2.1 (S "Dark Mode") (by decide) (by decide)),
   (c8_theme_partition.2.2.1 (S "spacing") (by decide) (by decide))⟩

/-! ### C10: `$`- and `_`-prefixed top-level categories are skipped -/

/-- C10: a top-level category whose name begins with `$` or `_`
contributes nothing: the category map, the set of per-category
component files, and the index imports are those of the document with
the entry removed. -/
theorem c10_metadata_categories_skipped (pre post : List (Str × JSValue)) (name : Str)
    (v : JSValue) (h : name.head? = some '$' ∨ name.head? = some '_') :
    categoriesOf (pre ++ (name, v) :: post) = categoriesOf (pre ++ post) ∧
    (categoriesOf (pre ++ (name, v) :: post)).map (fun kc => componentFilePath kc.1) =
      (categoriesOf (pre ++ post)).map (fun kc => componentFilePath kc.1) ∧
    generateIndexFileContent ((categoriesOf (pre ++ (name, v) :: post)).map Prod.fst) =
      generateIndexFileContent ((categoriesOf (pre ++ post)).map Prod.fst) := by
  have hmain : categoriesOf (pre ++ (name, v) :: post) = categoriesOf (pre ++ post) := by
    unfold categoriesOf
    rw [List.foldl_append, List.foldl_append, List.foldl_cons]
    congr 1
    rcases h with h | h <;> simp [h]
  exact ⟨hmain, by rw [hmain], by rw [hmain]⟩

theorem c10_metadata_categories_skipped_witness :
    categoriesOf
        [(S "_hidden", JSValue.obj (JSFields.cons (S "x")
            (JSValue.obj (JSFields.cons (S "type") (JSValue.str (S "color"))
              (JSFields.cons (S "value") (JSValue.str (S "#123")) JSFields.nil)))
            JSFields.nil)),
         (S "spacing", JSValue.obj (JSFields.cons (S "sm")
            (JSValue.obj (JSFields.cons (S "type") (JSValue.str (S "spacing"))
              (JSFields.cons (S "value") (JSValue.num 8) JSFields.nil)))
            JSFields.nil))] =
      categoriesOf
        [(S "spacing", JSValue.obj (JSFields.cons (S "sm")
            (JSValue.obj (JSFields.cons (S "type") (JSValue.str (S "spacing"))
              (JSFields.cons (S "value") (JSValue.num 8) JSFields.nil)))
            JSFields.nil))] :=
  (c10_metadata_categories_skipped []
    [(S "spacing", JSValue.obj (JSFields.cons (S "sm")
        (JSValue.obj (JSFields.cons (S "type") (JSValue.str (S "spacing"))
          (JSFields.cons (S "value") (JSValue.num 8) JSFields.nil)))
        JSFields.nil))]
    (S "_hidden")
    (JSValue.obj (JSFields.cons (S "x")
      (JSValue.obj (JSFields.cons (S "type") (JSValue.str (S "color"))
        (JSFields.cons (S "value") (JSValue.str (S "#123")) JSFields.nil)))
      JSFields.nil))
    (Or.inr (by decide))).1


/-! ### The flattening characterization (C1, C7) -/

theorem varsOf_cons_hit (k : Str) (c : Category) (rest : Categories) :
    varsOf ((k, c) :: rest) k = c.vars := by
  simp [varsOf, findCat]

theorem varsOf_cons_miss {k3 k : Str} (c : Category) (rest : Categories) (h : k3 ≠ k) :
    varsOf ((k3, c) :: rest) k = varsOf rest k := by
  simp [varsOf, findCat, h]

theorem mixinsOf_cons_hit (k : Str) (c : Category) (rest : Categories) :
    mixinsOf ((k, c) :: rest) k = c.mixins := by
  simp [mixinsOf, findCat]

theorem mixinsOf_cons_miss {k3 k : Str} (c : Category) (rest : Categories) (h : k3 ≠ k) :
    mixinsOf ((k3, c) :: rest) k = mixinsOf rest k := by
  simp [mixinsOf, findCat, h]

theorem varsOf_nil (k : Str) : varsOf [] k = [] := rfl

theorem mixinsOf_nil (k : Str) : mixinsOf [] k = [] := rfl

theorem varsOf_ensureCat : ∀ (cats : Categories) (k2 k : Str),
    varsOf (ensureCat cats k2) k = varsOf cats k
  | [], k2, k => by
    show varsOf [(k2, ⟨[], []⟩)] k = varsOf [] k
    by_cases h : k2 = k
    · subst h
      rw [varsOf_cons_hit]
      rfl
    · rw [varsOf_cons_miss _ _ h]
  | (k3, c) :: rest, k2, k => by
    by_cases h : k3 = k2
    · simp [ensureCat, h]
    · show varsOf (if k3 = k2 then _ else (k3, c) :: ensureCat rest k2) k = _
      rw [if_neg h]
      by_cases h2 : k3 = k
      · subst h2
        rw [varsOf_cons_hit, varsOf_cons_hit]
      · rw [varsOf_cons_miss _ _ h2, varsOf_cons_miss _ _ h2,
          varsOf_ensureCat rest k2 k]

theorem mixinsOf_ensureCat : ∀ (cats : Categories) (k2 k : Str),
    mixinsOf (ensureCat cats k2) k = mixinsOf cats k
  | [], k2, k => by
    show mixinsOf [(k2, ⟨[], []⟩)] k = mixinsOf [] k
    by_cases h : k2 = k
    · subst h
      rw [mixinsOf_cons_hit]
      rfl
    · rw [mixinsOf_cons_miss _ _ h]
  | (k3, c) :: rest, k2, k => by
    by_cases h : k3 = k2
    · simp [ensureCat, h]
    · show mixinsOf (if k3 = k2 then _ else (k3, c) :: ensureCat rest k2) k = _
      rw [if_neg h]
      by_cases h2 : k3 = k
      · subst h2
        rw [mixinsOf_cons_hit, mixinsOf_cons_hit]
      · rw [mixinsOf_cons_miss _ _ h2, mixinsOf_cons_miss _ _ h2,
          mixinsOf_ensureCat rest k2 k]

theorem varsOf_pushVar : ∀ (cats : Categories) (k2 k line : Str),
    varsOf (pushVar cats k2 line) k =
      varsOf cats k ++ (if k = k2 then [line] else [])
  | [], k2, k, line => by
    show varsOf [(k2, ⟨[line], []⟩)] k = varsOf [] k ++ _
    by_cases h : k = k2
    · subst h
      rw [varsOf_cons_hit, if_pos rfl]
      rfl
    · rw [varsOf_cons_miss _ _ (Ne.symm h), if_neg h]
      rfl
  | (k3, c) :: rest, k2, k, line => by
    by_cases h : k3 = k2
    · subst h
      show varsOf (if k3 = k3 then (k3, ⟨c.vars ++ [line], c.mixins⟩) :: rest else _) k = _
      rw [if_pos rfl]
      by_cases h2 : k3 = k
      · subst h2
        rw [varsOf_cons_hit, varsOf_cons_hit, if_pos rfl]
      · rw [varsOf_cons_miss _ _ h2, varsOf_cons_miss _ _ h2, if_neg (fun hh => h2 hh.symm)]
        simp
    · show varsOf (if k3 = k2 then _ else (k3, c) :: pushVar rest k2 line) k = _
      rw [if_neg h]
      by_cases h2 : k3 = k
      · subst h2
        rw [varsOf_cons_hit, varsOf_cons_hit, if_neg h]
        simp
      · rw [varsOf_cons_miss _ _ h2, varsOf_cons_miss _ _ h2,
          varsOf_pushVar rest k2 k line]

theorem mixinsOf_pushVar : ∀ (cats : Categories) (k2 k line : Str),
    mixinsOf (pushVar cats k2 line) k = mixinsOf cats k
  | [], k2, k, line => by
    show mixinsOf [(k2, ⟨[line], []⟩)] k = mixinsOf [] k
    by_cases h : k2 = k
    · subst h
      rw [mixinsOf_cons_hit]
      rfl
    · rw [mixinsOf_cons_miss _ _ h]
  | (k3, c) :: rest, k2, k, line => by
    by_cases h : k3 = k2
    · subst h
      show mixinsOf (if k3 = k3 then (k3, ⟨c.vars ++ [line], c.mixins⟩) :: rest else _) k = _
      rw [if_pos rfl]
      by_cases h2 : k3 = k
      · subst h2
        rw [mixinsOf_cons_hit, mixinsOf_cons_hit]
      · rw [mixinsOf_cons_miss _ _ h2, mixinsOf_cons_miss _ _ h2]
    · show mixinsOf (if k3 = k2 then _ else (k3, c) :: pushVar rest k2 line) k = _
      rw [if_neg h]
      by_cases h2 : k3 = k
      · subst h2
        rw [mixinsOf_cons_hit, mixinsOf_cons_hit]
      · rw [mixinsOf_cons_miss _ _ h2, mixinsOf_cons_miss _ _ h2,
          mixinsOf_pushVar rest k2 k line]

theorem varsOf_pushMixin : ∀ (cats : Categories) (k2 k m : Str),
    varsOf (pushMixin cats k2 m) k = varsOf cats k
  | [], k2, k, m => by
    show varsOf [(k2, ⟨[], [m]⟩)] k = varsOf [] k
    by_cases h : k2 = k
    · subst h
      rw [varsOf_cons_hit]
      rfl
    · rw [varsOf_cons_miss _ _ h]
  | (k3, c) :: rest, k2, k, m => by
    by_cases h : k3 = k2
    · subst h
      show varsOf (if k3 = k3 then (k3, ⟨c.vars, c.mixins ++ [m]⟩) :: rest else _) k = _
      rw [if_pos rfl]
      by_cases h2 : k3 = k
      · subst h2
        rw [varsOf_cons_hit, varsOf_cons_hit]
      · rw [varsOf_cons_miss _ _ h2, varsOf_cons_miss _ _ h2]
    · show varsOf (if k3 = k2 then _ else (k3, c) :: pushMixin rest k2 m) k = _
      rw [if_neg h]
      by_cases h2 : k3 = k
      · subst h2
        rw [varsOf_cons_hit, varsOf_cons_hit]
      · rw [varsOf_cons_miss _ _ h2, varsOf_cons_miss _ _ h2,
          varsOf_pushMixin rest k2 k m]

theorem mixinsOf_pushMixin : ∀ (cats : Categories) (k2 k m : Str),
    mixinsOf (pushMixin cats k2 m) k =
      mixinsOf cats k ++ (if k = k2 then [m] else [])
  | [], k2, k, m => by
    show mixinsOf [(k2, ⟨[], [m]⟩)] k = mixinsOf [] k ++ _
    by_cases h : k = k2
    · subst h
      rw [mixinsOf_cons_hit, if_pos rfl]
      rfl
    · rw [mixinsOf_cons_miss _ _ (Ne.symm h), if_neg h]
      rfl
  | (k3, c) :: rest, k2, k, m => by
    by_cases h : k3 = k2
    · subst h
      show mixinsOf (if k3 = k3 then (k3, ⟨c.vars, c.mixins ++ [m]⟩) :: rest else _) k = _
      rw [if_pos rfl]
      by_cases h2 : k3 = k
      · subst h2
        rw [mixinsOf_cons_hit, mixinsOf_cons_hit, if_pos rfl]
      · rw [mixinsOf_cons_miss _ _ h2, mixinsOf_cons_miss _ _ h2,
          if_neg (fun hh => h2 hh.symm)]
        simp
    · show mixinsOf (if k3 = k2 then _ else (k3, c) :: pushMixin rest k2 m) k = _
      rw [if_neg h]
      by_cases h2 : k3 = k
      · subst h2
        rw [mixinsOf_cons_hit, mixinsOf_cons_hit, if_neg h]
        simp
      · rw [mixinsOf_cons_miss _ _ h2, mixinsOf_cons_miss _ _ h2,
          mixinsOf_pushMixin rest k2 k m]

theorem varsOf_foldl_pushVar {α : Type} (key : Str) (g : α → Str) :
    ∀ (xs : List α) (cats : Categories) (k : Str),
    varsOf (xs.foldl (fun acc f => pushVar acc key (g f)) cats) k =
      varsOf cats k ++ (if k = key then xs.map g else []) := by
  intro xs
  induction xs with
  | nil => intro cats k; simp
  | cons x rest ih =>
    intro cats k
    rw [List.foldl_cons, ih, varsOf_pushVar]
    by_cases h : k = key <;> simp [h]

theorem mixinsOf_foldl_pushVar {α : Type} (key : Str) (g : α → Str) :
    ∀ (xs : List α) (cats : Categories) (k : Str),
    mixinsOf (xs.foldl (fun acc f => pushVar acc key (g f)) cats) k = mixinsOf cats k := by
  intro xs
  induction xs with
  | nil => intro cats k; simp
  | cons x rest ih =>
    intro cats k
    rw [List.foldl_cons, ih, mixinsOf_pushVar]

/-- What one leaf contributes to a category's variables. -/
theorem processLeaf_vars (v : JSValue) (bn : Str) (cats : Categories) (path k : Str) :
    varsOf (processLeaf v bn cats path) k =
      varsOf cats k ++ (if k = catKeyOf bn then tokenVars path v else []) := by
  simp only [processLeaf, tokenVars]
  rcases htv : jsOrV (getField v (S "$value")) (getField v (S "value")) with _ | tv
  · simp [varsOf_ensureCat]
  · by_cases hnull : isNullV tv = true
    · simp [hnull, varsOf_ensureCat]
    · rw [Bool.not_eq_true] at hnull
      simp only [hnull, Bool.false_eq_true, if_false]
      cases hB : (optTyIs (jsOrV (getField v (S "$type")) (getField v (S "type")))
          (S "typography") &&
          typeofObject (postConvert
            (convertValue tv (jsOrV (getField v (S "$type")) (getField v (S "type"))))
            (jsOrV (getField v (S "$type")) (getField v (S "type"))))) with
      | false =>
        simp only [hB, Bool.false_eq_true, if_false]
        rw [varsOf_pushVar, varsOf_ensureCat]
      | true =>
        simp only [hB, if_true]
        rw [varsOf_foldl_pushVar, varsOf_pushMixin, varsOf_ensureCat]

/-- What one leaf contributes to a category's mixins. -/
theorem processLeaf_mixins (v : JSValue) (bn : Str) (cats : Categories) (path k : Str) :
    mixinsOf (processLeaf v bn cats path) k =
      mixinsOf cats k ++ (if k = catKeyOf bn then tokenMixins path v else []) := by
  simp only [processLeaf, tokenMixins]
  rcases htv : jsOrV (getField v (S "$value")) (getField v (S "value")) with _ | tv
  · simp [mixinsOf_ensureCat]
  · by_cases hnull : isNullV tv = true
    · simp [hnull, mixinsOf_ensureCat]
    · rw [Bool.not_eq_true] at hnull
      simp only [hnull, Bool.false_eq_true, if_false]
      cases hB : (optTyIs (jsOrV (getField v (S "$type")) (getField v (S "type")))
          (S "typography") &&
          typeofObject (postConvert
            (convertValue tv (jsOrV (getField v (S "$type")) (getField v (S "type"))))
            (jsOrV (getField v (S "$type")) (getField v (S "type"))))) with
      | false =>
        simp only [hB, Bool.false_eq_true, if_false]
        rw [mixinsOf_pushVar, mixinsOf_ensureCat]
        simp
      | true =>
        simp only [hB, if_true]
        rw [mixinsOf_foldl_pushVar, mixinsOf_pushMixin, mixinsOf_ensureCat]

theorem pathJoin_cons (pfx : Str) (k : Str) (ks : List Str) :
    pathJoin pfx (k :: ks) = pathJoin (pathStep pfx k) ks := rfl

theorem leavesOf_skip (key : Str) (v : JSValue) (rest : JSFields)
    (h : skipKey key = true) :
    leavesOf (JSFields.cons key v rest) = leavesOf rest := by
  rw [leavesOf.eq_def]
  simp [h]

theorem leavesOf_leaf (key : Str) (v : JSValue) (rest : JSFields)
    (h : skipKey key = false) (h2 : leafTest v = true) :
    leavesOf (JSFields.cons key v rest) = ([key], v) :: leavesOf rest := by
  rw [leavesOf.eq_def]
  simp [h, h2]

theorem leavesOf_obj (key : Str) (fs rest : JSFields)
    (h : skipKey key = false) (h2 : leafTest (JSValue.obj fs) = false) :
    leavesOf (JSFields.cons key (JSValue.obj fs) rest) =
      ((leavesOf fs).map (fun p => (key :: p.1, p.2))) ++ leavesOf rest := by
  rw [leavesOf.eq_def]
  simp [h, h2]

theorem leavesOf_null (key : Str) (rest : JSFields)
    (h : skipKey key = false) (h2 : leafTest JSValue.null = false) :
    leavesOf (JSFields.cons key JSValue.null rest) = leavesOf rest := by
  rw [leavesOf.eq_def]
  simp [h, h2]

theorem leavesOf_bool (key : Str) (b : Bool) (rest : JSFields)
    (h : skipKey key = false) (h2 : leafTest (JSValue.bool b) = false) :
    leavesOf (JSFields.cons key (JSValue.bool b) rest) = leavesOf rest := by
  rw [leavesOf.eq_def]
  simp [h, h2]

theorem leavesOf_num (key : Str) (n : Int) (rest : JSFields)
    (h : skipKey key = false) (h2 : leafTest (JSValue.num n) = false) :
    leavesOf (JSFields.cons key (JSValue.num n) rest) = leavesOf rest := by
  rw [leavesOf.eq_def]
  simp [h, h2]

theorem leavesOf_str (key : Str) (s : Str) (rest : JSFields)
    (h : skipKey key = false) (h2 : leafTest (JSValue.str s) = false) :
    leavesOf (JSFields.cons key (JSValue.str s) rest) = leavesOf rest := by
  rw [leavesOf.eq_def]
  simp [h, h2]

theorem leavesOf_arr (key : Str) (xs : JSList) (rest : JSFields)
    (h : skipKey key = false) (h2 : leafTest (JSValue.arr xs) = false) :
    leavesOf (JSFields.cons key (JSValue.arr xs) rest) = leavesOf rest := by
  rw [leavesOf.eq_def]
  simp [h, h2]

/-- The flattening traversal, characterized by the leaf enumeration:
each leaf contributes exactly its `tokenVars` block, at the category key
of the base name, at its normalized hyphen-joined path. -/
theorem flatten_vars_spec : ∀ (fs : JSFields) (bn : Str) (cats : Categories) (pfx k : Str),
    varsOf (flattenTokensFields fs bn cats pfx) k =
      varsOf cats k ++
        (if k = catKeyOf bn then
          (leavesOf fs).flatMap (fun p => tokenVars (pathJoin pfx p.1) p.2)
        else [])
  | JSFields.nil, bn, cats, pfx, k => by
    simp [flattenTokensFields, leavesOf]
  | JSFields.cons key v rest, bn, cats, pfx, k => by
    by_cases hskip : skipKey key = true
    · rw [leavesOf_skip key v rest hskip]
      simp only [flattenTokensFields, hskip, if_true]
      exact flatten_vars_spec rest bn cats pfx k
    · rw [Bool.not_eq_true] at hskip
      by_cases hleaf : leafTest v = true
      · rw [leavesOf_leaf key v rest hskip hleaf]
        simp only [flattenTokensFields, hskip, Bool.false_eq_true, if_false, hleaf, if_true]
        rw [flatten_vars_spec rest bn _ pfx k, processLeaf_vars]
        by_cases hk : k = catKeyOf bn
        · simp only [hk, if_true, List.flatMap_cons, List.append_assoc]
          rfl
        · simp [hk]
      · rw [Bool.not_eq_true] at hleaf
        cases v with
        | obj fs =>
          rw [leavesOf_obj key fs rest hskip hleaf]
          simp only [flattenTokensFields, hskip, Bool.false_eq_true, if_false, hleaf]
          rw [flatten_vars_spec rest bn _ pfx k, flatten_vars_spec fs bn cats _ k]
          by_cases hk : k = catKeyOf bn
          · simp only [hk, if_true, List.flatMap_append, List.flatMap_map, List.append_assoc]
            rfl
          · simp [hk]
        | null =>
          rw [leavesOf_null key rest hskip hleaf]
          simp only [flattenTokensFields, hskip, Bool.false_eq_true, if_false, hleaf]
          exact flatten_vars_spec rest bn cats pfx k
        | bool b =>
          rw [leavesOf_bool key b rest hskip hleaf]
          simp only [flattenTokensFields, hskip, Bool.false_eq_true, if_false, hleaf]
          exact flatten_vars_spec rest bn cats pfx k
        | num n =>
          rw [leavesOf_num key n rest hskip hleaf]
          simp only [flattenTokensFields, hskip, Bool.false_eq_true, if_false, hleaf]
          exact flatten_vars_spec rest bn cats pfx k
        | str s =>
          rw [leavesOf_str key s rest hskip hleaf]
          simp only [flattenTokensFields, hskip, Bool.false_eq_true, if_false, hleaf]
          exact flatten_vars_spec rest bn cats pfx k
        | arr xs =>
          rw [leavesOf_arr key xs rest hskip hleaf]
          simp only [flattenTokensFields, hskip, Bool.false_eq_true, if_false, hleaf]
          exact flatten_vars_spec rest bn cats pfx k

theorem flatten_mixins_spec : ∀ (fs : JSFields) (bn : Str) (cats : Categories) (pfx k : Str),
    mixinsOf (flattenTokensFields fs bn cats pfx) k =
      mixinsOf cats k ++
        (if k = catKeyOf bn then
          (leavesOf fs).flatMap (fun p => tokenMixins (pathJoin pfx p.1) p.2)
        else [])
  | JSFields.nil, bn, cats, pfx, k => by
    simp [flattenTokensFields, leavesOf]
  | JSFields.cons key v rest, bn, cats, pfx, k => by
    by_cases hskip : skipKey key = true
    · rw [leavesOf_skip key v rest hskip]
      simp only [flattenTokensFields, hskip, if_true]
      exact flatten_mixins_spec rest bn cats pfx k
    · rw [Bool.not_eq_true] at hskip
      by_cases hleaf : leafTest v = true
      · rw [leavesOf_leaf key v rest hskip hleaf]
        simp only [flattenTokensFields, hskip, Bool.false_eq_true, if_false, hleaf, if_true]
        rw [flatten_mixins_spec rest bn _ pfx k, processLeaf_mixins]
        by_cases hk : k = catKeyOf bn
        · simp only [hk, if_true, List.flatMap_cons, List.append_assoc]
          rfl
        · simp [hk]
      · rw [Bool.not_eq_true] at hleaf
        cases v with
        | obj fs =>
          rw [leavesOf_obj key fs rest hskip hleaf]
          simp only [flattenTokensFields, hskip, Bool.false_eq_true, if_false, hleaf]
          rw [flatten_mixins_spec rest bn _ pfx k, flatten_mixins_spec fs bn cats _ k]
          by_cases hk : k = catKeyOf bn
          · simp only [hk, if_true, List.flatMap_append, List.flatMap_map, List.append_assoc]
            rfl
          · simp [hk]
        | null =>
          rw [leavesOf_null key rest hskip hleaf]
          simp only [flattenTokensFields, hskip, Bool.false_eq_true, if_false, hleaf]
          exact flatten_mixins_spec rest bn cats pfx k
        | bool b =>
          rw [leavesOf_bool key b rest hskip hleaf]
          simp only [flattenTokensFields, hskip, Bool.false_eq_true, if_false, hleaf]
          exact flatten_mixins_spec rest bn cats pfx k
        | num n =>
          rw [leavesOf_num key n rest hskip hleaf]
          simp only [flattenTokensFields, hskip, Bool.false_eq_true, if_false, hleaf]
          exact flatten_mixins_spec rest bn cats pfx k
        | str s =>
          rw [leavesOf_str key s rest hskip hleaf]
          simp only [flattenTokensFields, hskip, Bool.false_eq_true, if_false, hleaf]
          exact flatten_mixins_spec rest bn cats pfx k
        | arr xs =>
          rw [leavesOf_arr key xs rest hskip hleaf]
          simp only [flattenTokensFields, hskip, Bool.false_eq_true, if_false, hleaf]
          exact flatten_mixins_spec rest bn cats pfx k

/-- `leavesOf` distributes over field-list concatenation. -/
theorem leavesOf_append : ∀ (a b : JSFields),
    leavesOf (fieldsAppend a b) = leavesOf a ++ leavesOf b
  | JSFields.nil, b => by
    rfl
  | JSFields.cons key v rest, b => by
    show leavesOf (JSFields.cons key v (fieldsAppend rest b)) = _
    by_cases hskip : skipKey key = true
    · rw [leavesOf_skip _ _ _ hskip, leavesOf_skip _ _ _ hskip, leavesOf_append rest b]
    · rw [Bool.not_eq_true] at hskip
      by_cases hleaf : leafTest v = true
      · rw [leavesOf_leaf _ _ _ hskip hleaf, leavesOf_leaf _ _ _ hskip hleaf,
          leavesOf_append rest b]
        rfl
      · rw [Bool.not_eq_true] at hleaf
        cases v with
        | obj fs =>
          rw [leavesOf_obj _ _ _ hskip hleaf, leavesOf_obj _ _ _ hskip hleaf,
            leavesOf_append rest b, List.append_assoc]
        | null =>
          rw [leavesOf_null _ _ hskip hleaf, leavesOf_null _ _ hskip hleaf,
            leavesOf_append rest b]
        | bool bb =>
          rw [leavesOf_bool _ _ _ hskip hleaf, leavesOf_bool _ _ _ hskip hleaf,
            leavesOf_append rest b]
        | num n =>
          rw [leavesOf_num _ _ _ hskip hleaf, leavesOf_num _ _ _ hskip hleaf,
            leavesOf_append rest b]
        | str s =>
          rw [leavesOf_str _ _ _ hskip hleaf, leavesOf_str _ _ _ hskip hleaf,
            leavesOf_append rest b]
        | arr xs =>
          rw [leavesOf_arr _ _ _ hskip hleaf, leavesOf_arr _ _ _ hskip hleaf,
            leavesOf_append rest b]

/-- A token whose resolved value is `undefined` or `null` contributes no
variable declaration. -/
theorem tokenVars_of_null (p : Str) (v : JSValue)
    (hnull : ∀ tv, jsOrV (getField v (S "$value")) (getField v (S "value")) = some tv →
      isNullV tv = true) :
    tokenVars p v = [] := by
  simp only [tokenVars]
  rcases htv : jsOrV (getField v (S "$value")) (getField v (S "value")) with _ | tv
  · rfl
  · simp [hnull tv htv]

/-- A token whose resolved value is `undefined` or `null` contributes no
mixin. -/
theorem tokenMixins_of_null (p : Str) (v : JSValue)
    (hnull : ∀ tv, jsOrV (getField v (S "$value")) (getField v (S "value")) = some tv →
      isNullV tv = true) :
    tokenMixins p v = [] := by
  simp only [tokenMixins]
  rcases htv : jsOrV (getField v (S "$value")) (getField v (S "value")) with _ | tv
  · rfl
  · simp [hnull tv htv]

/-- C1, counterexample: the claim says every leaf token produces exactly
one custom-property name, equal to the normalized path joined by `-`.
The one-leaf typography document `c1doc` (`type.headingLarge`) has a
single leaf, yet flattening it emits five custom-property declarations
(one per converted typography property, named `--heading--large-<prop>`
with the leading `font-` stripped) plus one mixin — not one declaration
named by the joined path. -/
theorem c1_one_decl_per_leaf_counterexample :
    ((varsOf (flattenTokens c1doc (S "type") [] []) (S "type")).length = 5 ∧
      (varsOf (flattenTokens c1doc (S "type") [] []) (S "type")).head? =
        some (S "--heading--large-family: Arial;") ∧
      (mixinsOf (flattenTokens c1doc (S "type") [] []) (S "type")).length = 1) ∧
    (leavesOf (objEntries c1doc)).length = 1 := by
  decide

/-- C1, amended: flattening contributes, at the category key of the
base name, exactly the `tokenVars` block of each leaf at its normalized
hyphen-joined path (`pathJoin`); and for a leaf whose type is not
`typography` and whose resolved value is non-null, that block is exactly
one declaration line `--path: value;`.  Typography tokens instead yield
one declaration per converted property plus a mixin. -/
theorem c1_one_decl_per_leaf_amended (node : JSValue) (bn : Str) (cats : Categories)
    (pfx k : Str) :
    (varsOf (flattenTokens node bn cats pfx) k =
      varsOf cats k ++
        (if k = catKeyOf bn then
          (leavesOf (objEntries node)).flatMap (fun p => tokenVars (pathJoin pfx p.1) p.2)
        else [])) ∧
    (∀ path v tv,
      jsOrV (getField v (S "$value")) (getField v (S "value")) = some tv →
      isNullV tv = false →
      optTyIs (jsOrV (getField v (S "$type")) (getField v (S "type"))) (S "typography") =
        false →
      ∃ val, tokenVars path v = [S "--" ++ path ++ S ": " ++ val ++ S ";"]) := by
  constructor
  · exact flatten_vars_spec (objEntries node) bn cats pfx k
  · intro path v tv htv hnull hty
    refine ⟨jsTemplate (postConvert
      (convertValue tv (jsOrV (getField v (S "$type")) (getField v (S "type"))))
      (jsOrV (getField v (S "$type")) (getField v (S "type")))), ?_⟩
    simp only [tokenVars, htv, hnull, hty, Bool.false_and, Bool.false_eq_true, if_false]

/-- Witness for the amended C1 theorem: the color token `lightColorSample`
at path `color-primary` yields exactly one declaration line. -/
theorem c1_one_decl_per_leaf_amended_witness :
    ∃ val, tokenVars (S "color-primary") lightColorSample =
      [S "--" ++ S "color-primary" ++ S ": " ++ val ++ S ";"] :=
  (c1_one_decl_per_leaf_amended (JSValue.obj JSFields.nil) (S "x") [] [] (S "x")).2
    (S "color-primary") lightColorSample (JSValue.str (S "#fff")) rfl rfl rfl

/-- C7: a leaf token (a non-skipped key whose value passes the leaf test)
whose resolved value (`$value` falling back to `value`) is `undefined`
or `null` is silently skipped: flattening the surrounding field list
emits exactly the variables and mixins it would emit with that leaf
removed, in every category. -/
theorem c7_null_leaf_skipped (pre rest : JSFields) (key : Str) (v : JSValue)
    (bn : Str) (cats : Categories) (pfx k : Str)
    (hkey : skipKey key = false) (hleaf : leafTest v = true)
    (hnull : ∀ tv, jsOrV (getField v (S "$value")) (getField v (S "value")) = some tv →
      isNullV tv = true) :
    varsOf (flattenTokensFields (fieldsAppend pre (JSFields.cons key v rest)) bn cats pfx) k =
      varsOf (flattenTokensFields (fieldsAppend pre rest) bn cats pfx) k ∧
    mixinsOf (flattenTokensFields (fieldsAppend pre (JSFields.cons key v rest)) bn cats pfx) k =
      mixinsOf (flattenTokensFields (fieldsAppend pre rest) bn cats pfx) k := by
  constructor
  · rw [flatten_vars_spec, flatten_vars_spec, leavesOf_append, leavesOf_append,
      leavesOf_leaf key v rest hkey hleaf]
    by_cases hk : k = catKeyOf bn
    · simp [hk, List.flatMap_append, tokenVars_of_null _ v hnull]
    · simp [hk]
  · rw [flatten_mixins_spec, flatten_mixins_spec, leavesOf_append, leavesOf_append,
      leavesOf_leaf key v rest hkey hleaf]
    by_cases hk : k = catKeyOf bn
    · simp [hk, List.flatMap_append, tokenMixins_of_null _ v hnull]
    · simp [hk]

/-- Witness for C7: a concrete `null`-valued color leaf under key `a`
contributes nothing. -/
theorem c7_null_leaf_skipped_witness :
    varsOf (flattenTokensFields
        (fieldsAppend JSFields.nil (JSFields.cons (S "a") nullLeafSample JSFields.nil))
        (S "color") [] []) (S "color") =
      varsOf (flattenTokensFields (fieldsAppend JSFields.nil JSFields.nil)
        (S "color") [] []) (S "color") ∧
    mixinsOf (flattenTokensFields
        (fieldsAppend JSFields.nil (JSFields.cons (S "a") nullLeafSample JSFields.nil))
        (S "color") [] []) (S "color") =
      mixinsOf (flattenTokensFields (fieldsAppend JSFields.nil JSFields.nil)
        (S "color") [] []) (S "color") :=
  c7_null_leaf_skipped JSFields.nil JSFields.nil (S "a") nullLeafSample
    (S "color") [] [] (S "color") rfl rfl
    (fun tv h => by cases h; rfl)

/-! ### C4: the final sweep and its idempotence -/

theorem safe_char_ne {c : Char} (h : isSafeChar c = true) :
    c ≠ '\x7b' ∧ c ≠ '\x7d' ∧ c ≠ '\n' ∧ c ≠ '(' ∧ c ≠ ')' ∧ c ≠ ':' := by
  have hT := safe_toNat h
  refine ⟨?_, ?_, ?_, ?_, ?_, ?_⟩ <;> (intro he; subst he; revert hT; decide)

theorem mem_joinWith : ∀ (sep : Str) (ls : List Str) (c : Char), c ∈ joinWith sep ls →
    c ∈ sep ∨ ∃ l ∈ ls, c ∈ l
  | _, [], c => by
    intro h
    simp [joinWith] at h
  | _, [x], c => by
    intro h
    rw [joinWith] at h
    exact Or.inr ⟨x, List.mem_singleton_self x, h⟩
  | sep, x :: y :: rest, c => by
    intro h
    rw [show joinWith sep (x :: y :: rest) = x ++ sep ++ joinWith sep (y :: rest) from rfl] at h
    rcases List.mem_append.mp h with h1 | h1
    · rcases List.mem_append.mp h1 with h2 | h2
      · exact Or.inr ⟨x, List.mem_cons_self _ _, h2⟩
      · exact Or.inl h2
    · rcases mem_joinWith sep (y :: rest) c h1 with h2 | ⟨l, hl, hcl⟩
      · exact Or.inl h2
      · exact Or.inr ⟨l, List.mem_cons_of_mem _ hl, hcl⟩

theorem mem_normalizeReferencePath {c : Char} {p : Str}
    (h : c ∈ normalizeReferencePath p) : isSafeChar c = true := by
  unfold normalizeReferencePath at h
  rcases mem_joinWith _ _ _ h with h1 | ⟨l, hl, hcl⟩
  · rcases List.mem_singleton.mp h1 with rfl
    decide
  · rcases List.mem_map.mp hl with ⟨x, _, rfl⟩
    exact normalize_safe hcl

theorem breakRBrace_eq_none : ∀ (s : Str), '\x7d' ∉ s → breakRBrace s = none
  | [], _ => rfl
  | c :: rest, h => by
    have hc : ¬ (c = '\x7d') := fun he => h (he ▸ List.mem_cons_self _ _)
    rw [breakRBrace, if_neg hc, breakRBrace_eq_none rest (fun hm => h (List.mem_cons_of_mem _ hm))]

theorem no_rbrace_of_breakRBrace_none : ∀ (s : Str), breakRBrace s = none → '\x7d' ∉ s
  | [], _ => by simp
  | c :: rest, h => by
    rw [breakRBrace] at h
    by_cases hc : c = '\x7d'
    · rw [if_pos hc] at h
      exact absurd h (by simp)
    · rw [if_neg hc] at h
      intro hm
      rcases List.mem_cons.mp hm with he | hm2
      · exact hc he.symm
      · rcases hbr : breakRBrace rest with _ | ⟨a2, b2⟩
        · exact no_rbrace_of_breakRBrace_none rest hbr hm2
        · rw [hbr] at h
          exact absurd h (by simp)

theorem breakRBrace_some : ∀ (s a : Str) (after : { b : Str // b.length < s.length }),
    breakRBrace s = some (a, after) → s = a ++ '\x7d' :: after.1 ∧ '\x7d' ∉ a
  | [], a, after, h => by simp [breakRBrace] at h
  | c :: rest, a, after, h => by
    rw [breakRBrace] at h
    by_cases hc : c = '\x7d'
    · rw [if_pos hc] at h
      subst hc
      rcases h with ⟨rfl, rfl⟩  
      exact ⟨rfl, by simp⟩
    · rw [if_neg hc] at h
      rcases hbr : breakRBrace rest with _ | ⟨a2, b2⟩
      · rw [hbr] at h
        exact absurd h (by simp)
      · rw [hbr] at h
        rcases b2 with ⟨b2v, hb2⟩
        simp only [Option.some.injEq, Prod.mk.injEq] at h
        rcases h with ⟨rfl, rfl⟩
        obtain ⟨h1, h2⟩ := breakRBrace_some rest a2 ⟨b2v, hb2⟩ hbr
        constructor
        · rw [List.cons_append, ← h1]
        · intro hm
          rcases List.mem_cons.mp hm with he | hm2
          · exact hc he.symm
          · exact h2 hm2

theorem replaceRefs_no_rbrace : ∀ (s : Str), '\x7d' ∉ s → replaceRefs s = s
  | [], _ => rfl
  | c :: rest, h => by
    have hrest : '\x7d' ∉ rest := fun hm => h (List.mem_cons_of_mem _ hm)
    by_cases hc : c = '\x7b'
    · subst hc
      rw [replaceRefs_cons_brace_none (breakRBrace_eq_none rest hrest),
        replaceRefs_no_rbrace rest hrest]
    · rw [replaceRefs_cons_other rest hc, replaceRefs_no_rbrace rest hrest]

theorem hasRef_no_rbrace : ∀ (s : Str), '\x7d' ∉ s → hasRef s = false
  | [], _ => rfl
  | c :: rest, h => by
    have hrest : '\x7d' ∉ rest := fun hm => h (List.mem_cons_of_mem _ hm)
    by_cases hc : c = '\x7b'
    · subst hc
      rw [hasRef_cons_brace_none (breakRBrace_eq_none rest hrest), hasRef_no_rbrace rest hrest]
    · rw [hasRef_cons_other rest hc, hasRef_no_rbrace rest hrest]

theorem hasRef_append_no_lbrace : ∀ (a b : Str), '\x7b' ∉ a →
    hasRef (a ++ b) = hasRef b
  | [], b, _ => rfl
  | c :: rest, b, h => by
    have hc : c ≠ '\x7b' := fun he => h (he ▸ List.mem_cons_self _ _)
    rw [List.cons_append, hasRef_cons_other _ hc,
      hasRef_append_no_lbrace rest b (fun hm => h (List.mem_cons_of_mem _ hm))]

theorem mem_replaceRefs : ∀ (s : Str) (c : Char), c ∈ replaceRefs s →
    c ∈ s ∨ isSafeChar c = true ∨ c = '(' ∨ c = ')'
  | [], c => by
    rw [replaceRefs_nil]
    intro h
    exact absurd h (by simp)
  | d :: rest, c => by
    by_cases hd : d = '\x7b'
    · subst hd
      rcases hbr : breakRBrace rest with _ | ⟨inner, after⟩
      · rw [replaceRefs_cons_brace_none hbr]
        intro h
        rcases List.mem_cons.mp h with h1 | h1
        · exact Or.inl (h1 ▸ List.mem_cons_self _ _)
        · rcases mem_replaceRefs rest c h1 with h2 | h2
          · exact Or.inl (List.mem_cons_of_mem _ h2)
          · exact Or.inr h2
      · by_cases hinner : inner = []
        · subst hinner
          rw [replaceRefs_cons_brace_empty hbr]
          intro h
          rcases List.mem_cons.mp h with h1 | h1
          · exact Or.inl (h1 ▸ List.mem_cons_self _ _)
          · rcases mem_replaceRefs rest c h1 with h2 | h2
            · exact Or.inl (List.mem_cons_of_mem _ h2)
            · exact Or.inr h2
        · rw [replaceRefs_cons_brace_match hbr hinner]
          intro h
          rcases List.mem_append.mp h with h1 | h1
          · rcases List.mem_append.mp h1 with h2 | h2
            · have hv : ∀ x ∈ S "var(--", isSafeChar x = true ∨ x = '(' := by decide
              rcases hv c h2 with h3 | h3
              · exact Or.inr (Or.inl h3)
              · exact Or.inr (Or.inr (Or.inl h3))
            · exact Or.inr (Or.inl (mem_normalizeReferencePath h2))
          · rcases List.mem_cons.mp h1 with h3 | h3
            · exact Or.inr (Or.inr (Or.inr h3))
            · rcases mem_replaceRefs after.1 c h3 with h4 | h4
              · obtain ⟨hsplit, _⟩ := breakRBrace_some rest inner after hbr
                refine Or.inl (List.mem_cons_of_mem _ ?_)
                rw [hsplit]
                exact List.mem_append.mpr (Or.inr (List.mem_cons_of_mem _ h4))
              · exact Or.inr h4
    · rw [replaceRefs_cons_other rest hd]
      intro h
      rcases List.mem_cons.mp h with h1 | h1
      · exact Or.inl (h1 ▸ List.mem_cons_self _ _)
      · rcases mem_replaceRefs rest c h1 with h2 | h2
        · exact Or.inl (List.mem_cons_of_mem _ h2)
        · exact Or.inr h2
termination_by s _ => s.length
decreasing_by
  all_goals simp only [List.length_cons]
  all_goals omega

theorem hasRef_replaceRefs : ∀ (s : Str), hasRef (replaceRefs s) = false
  | [] => rfl
  | d :: rest => by
    by_cases hd : d = '\x7b'
    · subst hd
      rcases hbr : breakRBrace rest with _ | ⟨inner, after⟩
      · have hrest : '\x7d' ∉ rest := no_rbrace_of_breakRBrace_none rest hbr
        rw [replaceRefs_cons_brace_none hbr, replaceRefs_no_rbrace rest hrest,
          hasRef_cons_brace_none hbr]
        exact hasRef_no_rbrace rest hrest
      · by_cases hinner : inner = []
        · subst hinner
          obtain ⟨hsplit, _⟩ := breakRBrace_some rest [] after hbr
          rw [List.nil_append] at hsplit
          rw [replaceRefs_cons_brace_empty hbr, hsplit,
            replaceRefs_cons_other after.1 (by decide)]
          have hbr2 : breakRBrace ('\x7d' :: replaceRefs after.1) =
              some ([], ⟨replaceRefs after.1, by simp⟩) := by
            rw [breakRBrace, if_pos rfl]
          rw [hasRef_cons_brace_empty hbr2, hasRef_cons_other _ (by decide)]
          exact hasRef_replaceRefs after.1
        · rw [replaceRefs_cons_brace_match hbr hinner]
          have hshape : S "var(--" ++ normalizeReferencePath (jsTrim inner) ++
              ')' :: replaceRefs after.1 =
              (S "var(--" ++ normalizeReferencePath (jsTrim inner) ++ [')']) ++
                replaceRefs after.1 := by
            simp
          rw [hshape, hasRef_append_no_lbrace _ _ ?hnb]
          case hnb =>
            intro hm
            rcases List.mem_append.mp hm with h1 | h1
            · rcases List.mem_append.mp h1 with h2 | h2
              · exact absurd h2 (by decide)
              · exact absurd ((safe_char_ne (mem_normalizeReferencePath h2)).1 rfl) (fun f => f)
            · exact absurd (List.mem_singleton.mp h1) (by decide)
          exact hasRef_replaceRefs after.1
    · rw [replaceRefs_cons_other rest hd, hasRef_cons_other _ hd]
      exact hasRef_replaceRefs rest
termination_by s => s.length
decreasing_by
  all_goals simp only [List.length_cons]
  all_goals omega

theorem replaceRefs_of_not_hasRef : ∀ (s : Str), hasRef s = false → replaceRefs s = s
  | [], _ => rfl
  | d :: rest, h => by
    by_cases hd : d = '\x7b'
    · subst hd
      rcases hbr : breakRBrace rest with _ | ⟨inner, after⟩
      · rw [hasRef_cons_brace_none hbr] at h
        rw [replaceRefs_cons_brace_none hbr, replaceRefs_of_not_hasRef rest h]
      · by_cases hinner : inner = []
        · subst hinner
          rw [hasRef_cons_brace_empty hbr] at h
          rw [replaceRefs_cons_brace_empty hbr, replaceRefs_of_not_hasRef rest h]
        · rw [hasRef_cons_brace_match hbr hinner] at h
          exact absurd h (by simp)
    · rw [hasRef_cons_other rest hd] at h
      rw [replaceRefs_cons_other rest hd, replaceRefs_of_not_hasRef rest h]
termination_by s => s.length

theorem replaceRefs_idem (s : Str) : replaceRefs (replaceRefs s) = replaceRefs s :=
  replaceRefs_of_not_hasRef (replaceRefs s) (hasRef_replaceRefs s)

theorem fixLine_skip_or (l : Str) : fixLine l = l ∨ fixLine l = replaceRefs l := by
  unfold fixLine
  split
  · exact Or.inl rfl
  · exact Or.inr rfl

theorem fixLine_of_replaceRefs_eq {x : Str} (hx : replaceRefs x = x) : fixLine x = x := by
  unfold fixLine
  split
  · rfl
  · exact hx

theorem fixLine_idem (l : Str) : fixLine (fixLine l) = fixLine l := by
  rcases fixLine_skip_or l with h | h
  · rw [h]
    exact h
  · rw [h]
    exact fixLine_of_replaceRefs_eq (replaceRefs_idem l)

theorem splitLines_cons (c : Char) (rest : Str) :
    splitLines (c :: rest) =
      if c = '\n' then [] :: splitLines rest
      else match splitLines rest with
        | [] => [[c]]
        | hd :: tl => (c :: hd) :: tl := by
  rw [splitLines.eq_def]

theorem splitLines_ne_nil : ∀ (s : Str), splitLines s ≠ []
  | [] => by simp [splitLines]
  | c :: rest => by
    rw [splitLines_cons]
    by_cases hc : c = '\n'
    · simp [hc]
    · rcases h : splitLines rest with _ | ⟨hd, tl⟩
      · exact absurd h (splitLines_ne_nil rest)
      · simp [hc, h]

theorem splitLines_no_nl : ∀ (l : Str), '\n' ∉ l → splitLines l = [l]
  | [], _ => rfl
  | c :: rest, h => by
    have hc : ¬ (c = '\n') := fun he => h (he ▸ List.mem_cons_self _ _)
    rw [splitLines_cons, if_neg hc, splitLines_no_nl rest (fun hm => h (List.mem_cons_of_mem _ hm))]

theorem splitLines_append_nl : ∀ (a t : Str),
    splitLines (a ++ '\n' :: t) = splitLines a ++ splitLines t
  | [], t => by
    rw [List.nil_append, splitLines.eq_def]
    simp [splitLines]
  | c :: a2, t => by
    rw [List.cons_append, splitLines_cons]
    by_cases hc : c = '\n'
    · subst hc
      rw [if_pos rfl, splitLines_append_nl a2 t]
      have hR : splitLines ('\n' :: a2) = [] :: splitLines a2 := by
        rw [splitLines_cons, if_pos rfl]
      rw [hR]
      rfl
    · rw [if_neg hc, splitLines_append_nl a2 t]
      rcases ha : splitLines a2 with _ | ⟨hd, tl⟩
      · exact absurd ha (splitLines_ne_nil a2)
      · have hR : splitLines (c :: a2) = (c :: hd) :: tl := by
          rw [splitLines_cons, if_neg hc, ha]
        rw [hR]
        rfl

theorem mem_splitLines_no_nl : ∀ (s : Str) (l : Str), l ∈ splitLines s → '\n' ∉ l
  | [], l, h => by
    simp [splitLines] at h
    subst h
    simp
  | c :: rest, l, h => by
    rw [splitLines_cons] at h
    by_cases hc : c = '\n'
    · rw [if_pos hc] at h
      rcases List.mem_cons.mp h with h1 | h1
      · subst h1
        simp
      · exact mem_splitLines_no_nl rest l h1
    · rw [if_neg hc] at h
      rcases ha : splitLines rest with _ | ⟨hd, tl⟩
      · exact absurd ha (splitLines_ne_nil rest)
      · rw [ha] at h
        rcases List.mem_cons.mp h with h1 | h1
        · subst h1
          intro hm
          rcases List.mem_cons.mp hm with h2 | h2
          · exact hc h2.symm
          · exact mem_splitLines_no_nl rest hd (ha ▸ List.mem_cons_self _ _) h2
        · exact mem_splitLines_no_nl rest l (ha ▸ List.mem_cons_of_mem _ h1)

theorem joinLines_cons (x y : Str) (r : List Str) :
    joinLines (x :: y :: r) = x ++ '\n' :: joinLines (y :: r) := by
  show joinWith ['\n'] (x :: y :: r) = _
  rw [show joinWith ['\n'] (x :: y :: r) = x ++ ['\n'] ++ joinWith ['\n'] (y :: r) from rfl]
  simp [joinLines]

theorem splitLines_joinLines : ∀ (ls : List Str), ls ≠ [] → (∀ l ∈ ls, '\n' ∉ l) →
    splitLines (joinLines ls) = ls
  | [], h, _ => absurd rfl h
  | [x], _, hl => by
    show splitLines (joinWith ['\n'] [x]) = [x]
    rw [joinWith]
    exact splitLines_no_nl x (hl x (List.mem_singleton_self x))
  | x :: y :: r, _, hl => by
    rw [joinLines_cons, splitLines_append_nl,
      splitLines_no_nl x (hl x (List.mem_cons_self _ _)),
      splitLines_joinLines (y :: r) (by simp)
        (fun l hm => hl l (List.mem_cons_of_mem _ hm))]
    rfl

theorem fixLine_no_nl {l : Str} (h : '\n' ∉ l) : '\n' ∉ fixLine l := by
  rcases fixLine_skip_or l with he | he
  · rw [he]
    exact h
  · rw [he]
    intro hm
    rcases mem_replaceRefs l '\n' hm with h1 | h1 | h1 | h1
    · exact h h1
    · exact absurd h1 (by decide)
    · exact absurd h1 (by decide)
    · exact absurd h1 (by decide)

theorem splitLines_globalFixReferences (content : Str) :
    splitLines (globalFixReferences content) = (splitLines content).map fixLine := by
  unfold globalFixReferences
  apply splitLines_joinLines
  · intro h
    have hlen := congrArg List.length h
    simp only [List.length_map, List.length_nil] at hlen
    exact splitLines_ne_nil content (List.length_eq_zero.mp hlen)
  · intro l hm
    rcases List.mem_map.mp hm with ⟨x, hx, rfl⟩
    exact fixLine_no_nl (mem_splitLines_no_nl content x hx)

theorem map_fixLine_idem : ∀ (ls : List Str), (ls.map fixLine).map fixLine = ls.map fixLine
  | [] => rfl
  | x :: r => by
    simp only [List.map_cons, fixLine_idem x, map_fixLine_idem r]

theorem globalFixReferences_idem (content : Str) :
    globalFixReferences (globalFixReferences content) = globalFixReferences content := by
  show joinLines ((splitLines (globalFixReferences content)).map fixLine) = _
  rw [splitLines_globalFixReferences, map_fixLine_idem]
  rfl

/-- C4 (amended): the base-variables document and every theme document
are swept through `globalFixReferences` as the last step before being
written, so a further sweep of either written document is a no-op.  The
per-category component documents and the index are written without this
sweep (see the counterexample). -/
theorem c4_final_sweep_amended (catsV catsT : List (Str × List Str)) (tn : Str) :
    globalFixReferences (generateVariablesFileContent catsV) =
      generateVariablesFileContent catsV ∧
    globalFixReferences (generateThemeFileContent tn catsT) =
      generateThemeFileContent tn catsT :=
  ⟨globalFixReferences_idem _, globalFixReferences_idem _⟩

/-- C4, counterexample: the claim says every emitted document, the
per-category component documents included, is swept through the
reference fix-up before being written.  For the document `c4doc` (a
typography token whose `fontFamily` is the unresolved reference
`(brace)font.family(brace)`), the emitted component file for category
`type` still changes under `globalFixReferences`, so it was not swept;
the pair is nonetheless exactly what `scssOutput` emits. -/
theorem c4_final_sweep_counterexample :
    (componentFilePath (S "type"),
      generateCategoryFileContent (S "type")
        (varsOf (categoriesOf c4doc) (S "type"))
        (mixinsOf (categoriesOf c4doc) (S "type"))) ∈ scssOutput c4doc ∧
    globalFixReferences (generateCategoryFileContent (S "type")
        (varsOf (categoriesOf c4doc) (S "type"))
        (mixinsOf (categoriesOf c4doc) (S "type"))) ≠
      generateCategoryFileContent (S "type")
        (varsOf (categoriesOf c4doc) (S "type"))
        (mixinsOf (categoriesOf c4doc) (S "type")) := by
  constructor
  · decide
  · decide

/-! ### C2: references of the utility classes round-trip to declarations -/

theorem split_unique_left {c : Char} : ∀ {a b a2 b2 : Str},
    a ++ c :: b = a2 ++ c :: b2 → c ∉ a → c ∉ a2 → a = a2 ∧ b = b2 := by
  intro a
  induction a with
  | nil =>
    intro b a2 b2 h _ ha2
    cases a2 with
    | nil =>
      rw [List.nil_append, List.nil_append] at h
      exact ⟨rfl, (List.cons.injEq _ _ _ _ ▸ h).2⟩
    | cons x t =>
      rw [List.nil_append, List.cons_append] at h
      injection h with h1 h2
      exact absurd (h1 ▸ List.mem_cons_self _ _ : c ∈ x :: t) ha2
  | cons y a1 ih =>
    intro b a2 b2 h ha ha2
    cases a2 with
    | nil =>
      rw [List.cons_append, List.nil_append] at h
      injection h with h1 h2
      exact absurd (h1.symm ▸ List.mem_cons_self _ _ : c ∈ y :: a1) ha
    | cons x t =>
      rw [List.cons_append, List.cons_append] at h
      injection h with h1 h2
      obtain ⟨he1, he2⟩ := ih h2 (fun hm => ha (List.mem_cons_of_mem _ hm))
        (fun hm => ha2 (List.mem_cons_of_mem _ hm))
      exact ⟨by rw [h1, he1], he2⟩

theorem split_unique_right {c : Char} : ∀ {a b a2 b2 : Str},
    a ++ c :: b = a2 ++ c :: b2 → c ∉ a2 → c ∉ b2 → a = a2 ∧ b = b2 := by
  intro a
  induction a with
  | nil =>
    intro b a2 b2 h ha2 hb2
    cases a2 with
    | nil =>
      rw [List.nil_append, List.nil_append] at h
      exact ⟨rfl, (List.cons.injEq _ _ _ _ ▸ h).2⟩
    | cons x t =>
      rw [List.nil_append, List.cons_append] at h
      injection h with h1 h2
      exact absurd (List.mem_cons.mpr (Or.inl h1)) ha2
  | cons y a1 ih =>
    intro b a2 b2 h ha2 hb2
    cases a2 with
    | nil =>
      rw [List.cons_append, List.nil_append] at h
      injection h with h1 h2
      exfalso
      have : c ∈ a1 ++ c :: b := List.mem_append.mpr (Or.inr (List.mem_cons_self _ _))
      rw [h2] at this
      exact hb2 this
    | cons x t =>
      rw [List.cons_append, List.cons_append] at h
      injection h with h1 h2
      obtain ⟨he1, he2⟩ := ih h2 (fun hm => ha2 (List.mem_cons_of_mem _ hm)) hb2
      exact ⟨by rw [h1, he1], he2⟩

theorem parenOK_noParen {d : List Str} {s : Str} (h : '(' ∉ s) : ParenOK d s := by
  intro a b hab
  exfalso
  exact h (hab ▸ List.mem_append.mpr (Or.inr (List.mem_cons_self _ _)))

theorem parenOK_append {d : List Str} {s t : Str} (hs : ParenOK d s) (ht : ParenOK d t) :
    ParenOK d (s ++ t) := by
  intro a b hab
  rcases List.append_eq_append_iff.mp hab.symm with ⟨a2, hseq, hsplit⟩ | ⟨c2, _, hteq⟩
  · cases a2 with
    | nil =>
      rw [List.nil_append] at hsplit
      exact ht [] b (by rw [List.nil_append, ← hsplit])
    | cons x a3 =>
      injection hsplit with h1 h2
      obtain ⟨nm, hnm, hp⟩ := hs a a3 (by rw [hseq, ← h1])
      exact ⟨nm, hnm, hp.trans ⟨t, by rw [h2]; rfl⟩⟩
  · exact ht c2 b hteq

theorem parenOK_rule {d : List Str} {nm : Str} (pre post : Str)
    (hpre : '(' ∉ pre) (hnm : '(' ∉ nm) (hpost : '(' ∉ post) (hmem : nm ∈ d) :
    ParenOK d (pre ++ '(' :: (S "--" ++ nm ++ ')' :: post)) := by
  intro a b hab
  have hb2 : '(' ∉ S "--" ++ nm ++ ')' :: post := by
    intro hm
    rcases List.mem_append.mp hm with h1 | h1
    · rcases List.mem_append.mp h1 with h2 | h2
      · exact absurd h2 (by decide)
      · exact hnm h2
    · rcases List.mem_cons.mp h1 with h2 | h2
      · exact absurd h2 (by decide)
      · exact hpost h2
  obtain ⟨_, he2⟩ := split_unique_right hab.symm hpre hb2
  refine ⟨nm, hmem, ?_⟩
  rw [he2]
  exact ⟨post, by simp⟩

theorem takeWhile_append_all {p : Char → Bool} : ∀ (a b : Str), (∀ c ∈ a, p c = true) →
    (a ++ b).takeWhile p = a ++ b.takeWhile p
  | [], _, _ => rfl
  | c :: t, b, h => by
    rw [List.cons_append, List.takeWhile_cons, if_pos (h c (List.mem_cons_self _ _)),
      takeWhile_append_all t b (fun x hx => h x (List.mem_cons_of_mem _ hx)), List.cons_append]

theorem dropWhile_append_all {p : Char → Bool} : ∀ (a b : Str), (∀ c ∈ a, p c = true) →
    (a ++ b).dropWhile p = b.dropWhile p
  | [], _, _ => rfl
  | c :: t, b, h => by
    rw [List.cons_append, List.dropWhile_cons, if_pos (h c (List.mem_cons_self _ _)),
      dropWhile_append_all t b (fun x hx => h x (List.mem_cons_of_mem _ hx))]

theorem isPrefixOf_append_self (a b : Str) : a.isPrefixOf (a ++ b) = true :=
  List.isPrefixOf_iff_prefix.mpr (List.prefix_append a b)

theorem mem_of_head? {l : Str} {c : Char} (h : l.head? = some c) : c ∈ l := by
  cases l with
  | nil => exact absurd h (by simp)
  | cons x y =>
    simp only [List.head?_cons, Option.some.injEq] at h
    rw [← h]
    exact List.mem_cons_self _ _

theorem matchVarName_cons (c : Char) (rest : Str) :
    matchVarName (c :: rest) =
      if c = '-' ∧ rest.head? = some '-' then
        if (rest.tail.takeWhile (fun d => !decide (d = ':'))) ≠ [] ∧
            (rest.tail.takeWhile (fun d => !decide (d = ':'))).length < rest.tail.length then
          some (rest.tail.takeWhile (fun d => !decide (d = ':')))
        else matchVarName rest
      else matchVarName rest := by
  rw [matchVarName.eq_def]

theorem takeWhile_name_part {nm : Str} (tail2 : Str)
    (hnm : ∀ c ∈ nm, isSafeChar c = true) :
    (nm ++ ':' :: tail2).takeWhile (fun d => !decide (d = ':')) = nm := by
  rw [takeWhile_append_all nm _ (fun c hc => by
    have hc2 := (safe_char_ne (hnm c hc)).2.2.2.2.2
    simp [hc2])]
  simp

theorem matchVarName_shape (nm val : Str) (hne : nm ≠ [])
    (hnm : ∀ c ∈ nm, isSafeChar c = true) :
    matchVarName (S "--" ++ nm ++ S ": " ++ val ++ [';']) = some nm := by
  have hv : S "--" ++ nm ++ S ": " ++ val ++ [';'] =
      '-' :: '-' :: (nm ++ ':' :: (' ' :: (val ++ [';']))) := by
    rw [show S "--" = ['-', '-'] from rfl, show S ": " = [':', ' '] from rfl]
    simp [List.append_assoc]
  rw [hv, matchVarName_cons, if_pos ⟨rfl, rfl⟩]
  have htw : (('-' :: (nm ++ ':' :: (' ' :: (val ++ [';'])))).tail).takeWhile
      (fun d => !decide (d = ':')) = nm := takeWhile_name_part _ hnm
  rw [htw]
  rw [if_pos ⟨hne, by simp [List.length_append]⟩]

theorem mixinNameOf_cons (c : Char) (rest : Str) :
    mixinNameOf (c :: rest) =
      if (S "@mixin ").isPrefixOf (c :: rest) then
        if ((c :: rest).drop 7).takeWhile (fun d => !decide (d = '\x7b')) ≠ [] then
          some (((c :: rest).drop 7).takeWhile (fun d => !decide (d = '\x7b')))
        else mixinNameOf rest
      else mixinNameOf rest := by
  rw [mixinNameOf.eq_def]

theorem mixinNameOf_shape (nm body : Str)
    (hnm : ∀ c ∈ nm, isSafeChar c = true) :
    mixinNameOf (S "@mixin " ++ nm ++ S " \x7b\n" ++ body) = some (nm ++ [' ']) := by
  have hm : S "@mixin " ++ nm ++ S " \x7b\n" ++ body =
      '@' :: (S "mixin " ++ (nm ++ ' ' :: '\x7b' :: '\n' :: body)) := by
    rw [show S "@mixin " = ['@', 'm', 'i', 'x', 'i', 'n', ' '] from rfl,
      show S " \x7b\n" = [' ', '\x7b', '\n'] from rfl]
    simp [List.append_assoc]
    rfl
  rw [hm, mixinNameOf_cons]
  have hpre : List.isPrefixOf (S "@mixin ")
      ('@' :: (S "mixin " ++ (nm ++ ' ' :: '\x7b' :: '\n' :: body))) = true :=
    isPrefixOf_append_self (S "@mixin ") (nm ++ ' ' :: '\x7b' :: '\n' :: body)
  rw [if_pos hpre]
  have hdrop : ('@' :: (S "mixin " ++ (nm ++ ' ' :: '\x7b' :: '\n' :: body))).drop 7 =
      nm ++ ' ' :: '\x7b' :: '\n' :: body := rfl
  rw [hdrop]
  have htw : (nm ++ ' ' :: '\x7b' :: '\n' :: body).takeWhile
      (fun d => !decide (d = '\x7b')) = nm ++ [' '] := by
    rw [takeWhile_append_all nm _ (fun c hc => by
      have hc2 := (safe_char_ne (hnm c hc)).1
      simp [hc2])]
    simp
  rw [htw]
  rw [if_pos (by simp)]

theorem jsTrim_safe_pad (nm : Str) (hne : nm ≠ [])
    (hnm : ∀ c ∈ nm, isSafeChar c = true) : jsTrim (nm ++ [' ']) = nm := by
  have hL : jsTrimLeft (nm ++ [' ']) = nm ++ [' '] := by
    cases nm with
    | nil => exact absurd rfl hne
    | cons a t =>
      show ((a :: t) ++ [' ']).dropWhile isJsWs = (a :: t) ++ [' ']
      rw [List.cons_append, List.dropWhile_cons,
        if_neg (by simp [safe_not_ws (hnm a (List.mem_cons_self _ _))])]
  show jsTrimRight (jsTrimLeft (nm ++ [' '])) = nm
  rw [hL]
  show ((nm ++ [' ']).reverse.dropWhile isJsWs).reverse = nm
  rw [List.reverse_append, show ([' '] : Str).reverse = [' '] from rfl,
    dropWhile_append_all [' '] nm.reverse (by decide),
    dropWhile_eq_self_of_head (fun c hc =>
      safe_not_ws (hnm c (List.mem_reverse.mp (mem_of_head? hc)))),
    List.reverse_reverse]

theorem not_mem_append {c : Char} {a b : Str} (ha : c ∉ a) (hb : c ∉ b) : c ∉ a ++ b :=
  fun hm => (List.mem_append.mp hm).elim ha hb

theorem safeNameB_ne {nm : Str} (h : safeNameB nm = true) : nm ≠ [] := by
  unfold safeNameB at h
  rw [Bool.and_eq_true] at h
  exact of_decide_eq_true h.1

theorem safeNameB_all {nm : Str} (h : safeNameB nm = true) :
    ∀ c ∈ nm, isSafeChar c = true := by
  unfold safeNameB at h
  rw [Bool.and_eq_true] at h
  exact fun c hc => List.all_eq_true.mp h.2 c hc

theorem noParen_of_safe {nm : Str} (hnm : ∀ c ∈ nm, isSafeChar c = true) : '(' ∉ nm :=
  fun hm => (safe_char_ne (hnm _ hm)).2.2.2.1 rfl

theorem parenOK_rule_cons {d : List Str} {nm : Str} (pre post : Str)
    (hpre : '(' ∉ pre) (hnm : '(' ∉ nm) (hmem : nm ∈ d) (hpost : ParenOK d post) :
    ParenOK d (pre ++ '(' :: (S "--" ++ nm ++ ')' :: post)) := by
  have hR : '(' ∉ S "--" ++ nm ++ [')'] := by
    intro hm
    rcases List.mem_append.mp hm with h1 | h1
    · rcases List.mem_append.mp h1 with h2 | h2
      · exact absurd h2 (by decide)
      · exact hnm h2
    · exact absurd (List.mem_singleton.mp h1) (by decide)
  intro a b hab
  rcases List.append_eq_append_iff.mp hab.symm with ⟨a2, hpeq, hsplit⟩ | ⟨c2, _, hteq⟩
  · cases a2 with
    | nil =>
      rw [List.nil_append] at hsplit
      injection hsplit with _ h2
      refine ⟨nm, hmem, ?_⟩
      rw [h2]
      refine ⟨post, ?_⟩
      simp
    | cons x a3 =>
      injection hsplit with h1 _
      exact absurd (show '(' ∈ pre by
        rw [hpeq]
        exact List.mem_append.mpr (Or.inr (List.mem_cons.mpr (Or.inl h1)))) hpre
  · cases c2 with
    | nil =>
      rw [List.nil_append] at hteq
      injection hteq with _ h2
      refine ⟨nm, hmem, ?_⟩
      rw [← h2]
      refine ⟨post, ?_⟩
      simp
    | cons y c3 =>
      injection hteq with h1 h2
      have h2x : S "--" ++ nm ++ ')' :: post = c3 ++ '(' :: b := by
        rw [h2]
        rfl
      have hR2 : (S "--" ++ nm ++ [')']) ++ post = c3 ++ '(' :: b := by
        rw [← h2x]
        simp
      rcases List.append_eq_append_iff.mp hR2 with ⟨w, _, hpostsplit⟩ | ⟨w, hAeq, hwsplit⟩
      · exact hpost w b hpostsplit
      · cases w with
        | nil =>
          rw [List.nil_append] at hwsplit
          exact hpost [] b (by rw [List.nil_append]; exact hwsplit.symm)
        | cons y2 w2 =>
          injection hwsplit with h3 _
          exact absurd (show '(' ∈ S "--" ++ nm ++ [')'] by
            rw [hAeq]
            exact List.mem_append.mpr (Or.inr (List.mem_cons.mpr (Or.inl h3)))) hR

theorem mixApp_noParen : ∀ (mixins : List Str), (∀ m ∈ mixins, wfMixin m) →
    '(' ∉ concatAll (mixins.map (fun m =>
      match mixinNameOf m with
      | some nm =>
        '.' :: jsTrim nm ++ S " \x7b @include " ++ jsTrim nm ++ S "; \x7d\n"
      | none => []))
  | [], _ => by simp [concatAll]
  | m :: r, hmix => by
    rw [List.map_cons]
    rw [show concatAll ((match mixinNameOf m with
      | some nm => '.' :: jsTrim nm ++ S " \x7b @include " ++ jsTrim nm ++ S "; \x7d\n"
      | none => []) :: (r.map (fun m2 =>
        match mixinNameOf m2 with
        | some nm => '.' :: jsTrim nm ++ S " \x7b @include " ++ jsTrim nm ++ S "; \x7d\n"
        | none => []))) = (match mixinNameOf m with
      | some nm => '.' :: jsTrim nm ++ S " \x7b @include " ++ jsTrim nm ++ S "; \x7d\n"
      | none => []) ++ concatAll (r.map (fun m2 =>
        match mixinNameOf m2 with
        | some nm => '.' :: jsTrim nm ++ S " \x7b @include " ++ jsTrim nm ++ S "; \x7d\n"
        | none => [])) from rfl]
    apply not_mem_append
    · obtain ⟨nm, body, hshape, hsafe⟩ := hmix m (List.mem_cons_self _ _)
      rw [hshape, mixinNameOf_shape nm body (safeNameB_all hsafe)]
      show '(' ∉ '.' :: jsTrim (nm ++ [' ']) ++ S " \x7b @include " ++
        jsTrim (nm ++ [' ']) ++ S "; \x7d\n"
      rw [jsTrim_safe_pad nm (safeNameB_ne hsafe) (safeNameB_all hsafe)]
      refine not_mem_append (not_mem_append (not_mem_append ?h1
        (by decide)) (noParen_of_safe (safeNameB_all hsafe))) (by decide)
      intro hm
      rcases List.mem_cons.mp hm with h1 | h1
      · exact absurd h1 (by decide)
      · exact noParen_of_safe (safeNameB_all hsafe) h1
    · exact mixApp_noParen r (fun m2 hm2 => hmix m2 (List.mem_cons_of_mem _ hm2))

theorem noParen_pre_seg {nm : Str} (a b : Str) (ha : '(' ∉ a) (hb : '(' ∉ b)
    (hnm : ∀ c ∈ nm, isSafeChar c = true) : '(' ∉ a ++ nm ++ b :=
  not_mem_append (not_mem_append ha (noParen_of_safe hnm)) hb

theorem generateColorUtilities_parenOK (d : List Str) : ∀ (vars : List Str),
    (∀ v ∈ vars, strictVarLine v) →
    (∀ v ∈ vars, ∀ nm, matchVarName v = some nm → nm ∈ d) →
    ParenOK d (generateColorUtilities vars)
  | [], _, _ => parenOK_noParen (by simp [generateColorUtilities, concatAll])
  | v :: r, hvars, hd => by
    obtain ⟨nm, val, hshape, hsafe, hcol, hnl⟩ := hvars v (List.mem_cons_self _ _)
    subst hshape
    have hstep : generateColorUtilities ((S "--" ++ nm ++ S ": " ++ val ++ [';']) :: r) =
        (if containsSub nm (S "color") || containsSub nm (S "background") ||
            endsDigit nm then
          S ".text-" ++ nm ++ S " \x7b color: var(--" ++ nm ++ S "); \x7d\n" ++
            S ".bg-" ++ nm ++ S " \x7b background-color: var(--" ++ nm ++
            S "); \x7d\n" ++
            S ".border-" ++ nm ++ S " \x7b border-color: var(--" ++ nm ++
            S "); \x7d\n"
        else []) ++ generateColorUtilities r := by
      have h0 : generateColorUtilities ((S "--" ++ nm ++ S ": " ++ val ++ [';']) :: r) =
          (match matchVarName (S "--" ++ nm ++ S ": " ++ val ++ [';']) with
          | some className =>
            if containsSub className (S "color") || containsSub className (S "background") ||
                endsDigit className then
              S ".text-" ++ className ++ S " \x7b color: var(--" ++ className ++
                S "); \x7d\n" ++
                S ".bg-" ++ className ++ S " \x7b background-color: var(--" ++ className ++
                S "); \x7d\n" ++
                S ".border-" ++ className ++ S " \x7b border-color: var(--" ++ className ++
                S "); \x7d\n"
            else []
          | none => []) ++ generateColorUtilities r := rfl
      rw [h0, matchVarName_shape nm val (safeNameB_ne hsafe) (safeNameB_all hsafe)]
    rw [hstep]
    refine parenOK_append ?head (generateColorUtilities_parenOK d r
      (fun v2 hv2 => hvars v2 (List.mem_cons_of_mem _ hv2))
      (fun v2 hv2 => hd v2 (List.mem_cons_of_mem _ hv2)))
    by_cases hcond : (containsSub nm (S "color") || containsSub nm (S "background") ||
        endsDigit nm) = true
    · rw [if_pos hcond]
      have hall := safeNameB_all hsafe
      have hnmp : '(' ∉ nm := noParen_of_safe hall
      have hmem : nm ∈ d := hd _ (List.mem_cons_self _ _) nm
        (matchVarName_shape nm val (safeNameB_ne hsafe) hall)
      have hpR : ParenOK d ((S ".text-" ++ nm ++ S " \x7b color: var") ++
          '(' :: (S "--" ++ nm ++ ')' :: (S "; \x7d\n" ++
          ((S ".bg-" ++ nm ++ S " \x7b background-color: var") ++
          '(' :: (S "--" ++ nm ++ ')' :: (S "; \x7d\n" ++
          ((S ".border-" ++ nm ++ S " \x7b border-color: var") ++
          '(' :: (S "--" ++ nm ++ ')' :: S "; \x7d\n")))))))) := by
        refine parenOK_rule_cons _ _ (noParen_pre_seg _ _ (by decide) (by decide) hall)
          hnmp hmem ?_
        refine parenOK_append (parenOK_noParen (by decide)) ?_
        refine parenOK_rule_cons _ _ (noParen_pre_seg _ _ (by decide) (by decide) hall)
          hnmp hmem ?_
        refine parenOK_append (parenOK_noParen (by decide)) ?_
        refine parenOK_rule_cons _ _ (noParen_pre_seg _ _ (by decide) (by decide) hall)
          hnmp hmem (parenOK_noParen (by decide))
      have heq : S ".text-" ++ nm ++ S " \x7b color: var(--" ++ nm ++ S "); \x7d\n" ++
          S ".bg-" ++ nm ++ S " \x7b background-color: var(--" ++ nm ++ S "); \x7d\n" ++
          S ".border-" ++ nm ++ S " \x7b border-color: var(--" ++ nm ++ S "); \x7d\n" =
          (S ".text-" ++ nm ++ S " \x7b color: var") ++
          '(' :: (S "--" ++ nm ++ ')' :: (S "; \x7d\n" ++
          ((S ".bg-" ++ nm ++ S " \x7b background-color: var") ++
          '(' :: (S "--" ++ nm ++ ')' :: (S "; \x7d\n" ++
          ((S ".border-" ++ nm ++ S " \x7b border-color: var") ++
          '(' :: (S "--" ++ nm ++ ')' :: S "; \x7d\n"))))))) := by
        rw [show S " \x7b color: var(--" = S " \x7b color: var" ++ '(' :: S "--" from rfl,
          show S " \x7b background-color: var(--" =
            S " \x7b background-color: var" ++ '(' :: S "--" from rfl,
          show S " \x7b border-color: var(--" =
            S " \x7b border-color: var" ++ '(' :: S "--" from rfl,
          show S "); \x7d\n" = ')' :: S "; \x7d\n" from rfl]
        simp [List.append_assoc]
      rw [heq]
      exact hpR
    · rw [if_neg hcond]
      exact parenOK_noParen (by simp)

theorem generateSpacingUtilities_parenOK (d : List Str) : ∀ (vars : List Str),
    (∀ v ∈ vars, strictVarLine v) →
    (∀ v ∈ vars, ∀ nm, matchVarName v = some nm → nm ∈ d) →
    ParenOK d (generateSpacingUtilities vars)
  | [], _, _ => parenOK_noParen (by simp [generateSpacingUtilities, concatAll])
  | v :: r, hvars, hd => by
    obtain ⟨nm, val, hshape, hsafe, hcol, hnl⟩ := hvars v (List.mem_cons_self _ _)
    subst hshape
    have hstep : generateSpacingUtilities ((S "--" ++ nm ++ S ": " ++ val ++ [';']) :: r) =
        (if containsSub nm (S "spacing") || containsSub nm (S "padding") ||
            containsSub nm (S "margin") then
          S ".m-" ++ nm ++ S " \x7b margin: var(--" ++ nm ++ S "); \x7d\n" ++
            S ".p-" ++ nm ++ S " \x7b padding: var(--" ++ nm ++ S "); \x7d\n"
        else []) ++ generateSpacingUtilities r := by
      have h0 : generateSpacingUtilities ((S "--" ++ nm ++ S ": " ++ val ++ [';']) :: r) =
          (match matchVarName (S "--" ++ nm ++ S ": " ++ val ++ [';']) with
          | some className =>
            if containsSub className (S "spacing") || containsSub className (S "padding") ||
                containsSub className (S "margin") then
              S ".m-" ++ className ++ S " \x7b margin: var(--" ++ className ++
                S "); \x7d\n" ++
                S ".p-" ++ className ++ S " \x7b padding: var(--" ++ className ++
                S "); \x7d\n"
            else []
          | none => []) ++ generateSpacingUtilities r := rfl
      rw [h0, matchVarName_shape nm val (safeNameB_ne hsafe) (safeNameB_all hsafe)]
    rw [hstep]
    refine parenOK_append ?head (generateSpacingUtilities_parenOK d r
      (fun v2 hv2 => hvars v2 (List.mem_cons_of_mem _ hv2))
      (fun v2 hv2 => hd v2 (List.mem_cons_of_mem _ hv2)))
    by_cases hcond : (containsSub nm (S "spacing") || containsSub nm (S "padding") ||
        containsSub nm (S "margin")) = true
    · rw [if_pos hcond]
      have hall := safeNameB_all hsafe
      have hnmp : '(' ∉ nm := noParen_of_safe hall
      have hmem : nm ∈ d := hd _ (List.mem_cons_self _ _) nm
        (matchVarName_shape nm val (safeNameB_ne hsafe) hall)
      have hpR : ParenOK d ((S ".m-" ++ nm ++ S " \x7b margin: var") ++
          '(' :: (S "--" ++ nm ++ ')' :: (S "; \x7d\n" ++
          ((S ".p-" ++ nm ++ S " \x7b padding: var") ++
          '(' :: (S "--" ++ nm ++ ')' :: S "; \x7d\n"))))) := by
        refine parenOK_rule_cons _ _ (noParen_pre_seg _ _ (by decide) (by decide) hall)
          hnmp hmem ?_
        refine parenOK_append (parenOK_noParen (by decide)) ?_
        exact parenOK_rule_cons _ _ (noParen_pre_seg _ _ (by decide) (by decide) hall)
          hnmp hmem (parenOK_noParen (by decide))
      have heq : S ".m-" ++ nm ++ S " \x7b margin: var(--" ++ nm ++ S "); \x7d\n" ++
          S ".p-" ++ nm ++ S " \x7b padding: var(--" ++ nm ++ S "); \x7d\n" =
          (S ".m-" ++ nm ++ S " \x7b margin: var") ++
          '(' :: (S "--" ++ nm ++ ')' :: (S "; \x7d\n" ++
          ((S ".p-" ++ nm ++ S " \x7b padding: var") ++
          '(' :: (S "--" ++ nm ++ ')' :: S "; \x7d\n")))) := by
        rw [show S " \x7b margin: var(--" = S " \x7b margin: var" ++ '(' :: S "--" from rfl,
          show S " \x7b padding: var(--" = S " \x7b padding: var" ++ '(' :: S "--" from rfl,
          show S "); \x7d\n" = ')' :: S "; \x7d\n" from rfl]
        simp [List.append_assoc]
      rw [heq]
      exact hpR
    · rw [if_neg hcond]
      exact parenOK_noParen (by simp)

theorem generateComponentUtilities_noParen (name : Str) (data : List Str)
    (hname : ∀ c ∈ name, isSafeChar c = true) :
    '(' ∉ generateComponentUtilities name data := by
  have heq : generateComponentUtilities name data =
      S "// " ++ name ++ S " component utilities\n" ++ '.' :: name ++ S " \x7b\n" ++
        S "  // Base styles using tokens\n" ++ ([] : Str) ++ S "\x7d\n\n" ++ ([] : Str) :=
    rfl
  rw [heq]
  have hdot : '(' ∉ '.' :: name := by
    intro hm
    rcases List.mem_cons.mp hm with h1 | h1
    · exact absurd h1 (by decide)
    · exact noParen_of_safe hname h1
  refine not_mem_append (not_mem_append (not_mem_append (not_mem_append (not_mem_append
    (not_mem_append (noParen_pre_seg _ _ (by decide) (by decide) hname) hdot)
    (by decide)) (by decide)) (by simp)) (by decide)) (by simp)

theorem parenOK_fallback {d : List Str} {u fallback : Str} (hu : ParenOK d u)
    (hf : '(' ∉ fallback) : ParenOK d (if u = [] then fallback else u) := by
  by_cases hz : u = []
  · rw [if_pos hz]
    exact parenOK_noParen hf
  · rw [if_neg hz]
    exact hu

theorem generateBasicUtilities_parenOK (d : List Str) (categoryName : Str)
    (vars mixins : List Str)
    (hcat : ∀ c ∈ categoryName, isSafeChar c = true)
    (hvars : ∀ v ∈ vars, strictVarLine v)
    (hmix : ∀ m ∈ mixins, wfMixin m)
    (hd : ∀ v ∈ vars, ∀ nm, matchVarName v = some nm → nm ∈ d) :
    ParenOK d (generateBasicUtilities categoryName vars mixins) := by
  have hu3 : ParenOK d (concatAll (mixins.map (fun m =>
      match mixinNameOf m with
      | some nm =>
        '.' :: jsTrim nm ++ S " \x7b @include " ++ jsTrim nm ++ S "; \x7d\n"
      | none => [])) ++
      (if containsSub categoryName (S "color") || hasColorTokens vars then
        generateColorUtilities vars
      else []) ++
      (if containsSub categoryName (S "spacing") || hasSpacingTokens vars then
        generateSpacingUtilities vars
      else []) ++
      (if isComponentTokens vars then generateComponentUtilities categoryName vars
      else [])) := by
    refine parenOK_append (parenOK_append (parenOK_append
      (parenOK_noParen (mixApp_noParen mixins hmix)) ?c1) ?c2) ?c3
    · by_cases h1 : (containsSub categoryName (S "color") || hasColorTokens vars) = true
      · rw [if_pos h1]
        exact generateColorUtilities_parenOK d vars hvars hd
      · rw [if_neg h1]
        exact parenOK_noParen (by simp)
    · by_cases h2 : (containsSub categoryName (S "spacing") || hasSpacingTokens vars) = true
      · rw [if_pos h2]
        exact generateSpacingUtilities_parenOK d vars hvars hd
      · rw [if_neg h2]
        exact parenOK_noParen (by simp)
    · by_cases h3 : isComponentTokens vars = true
      · rw [if_pos h3]
        exact parenOK_noParen (generateComponentUtilities_noParen categoryName vars hcat)
      · rw [if_neg h3]
        exact parenOK_noParen (by simp)
  have hdef : generateBasicUtilities categoryName vars mixins =
      if (concatAll (mixins.map (fun m =>
        match mixinNameOf m with
        | some nm =>
          '.' :: jsTrim nm ++ S " \x7b @include " ++ jsTrim nm ++ S "; \x7d\n"
        | none => [])) ++
        (if containsSub categoryName (S "color") || hasColorTokens vars then
          generateColorUtilities vars
        else []) ++
        (if containsSub categoryName (S "spacing") || hasSpacingTokens vars then
          generateSpacingUtilities vars
        else []) ++
        (if isComponentTokens vars then generateComponentUtilities categoryName vars
        else [])) = [] then
        S "// No utilities generated for " ++ categoryName ++ ['\n']
      else concatAll (mixins.map (fun m =>
        match mixinNameOf m with
        | some nm =>
          '.' :: jsTrim nm ++ S " \x7b @include " ++ jsTrim nm ++ S "; \x7d\n"
        | none => [])) ++
        (if containsSub categoryName (S "color") || hasColorTokens vars then
          generateColorUtilities vars
        else []) ++
        (if containsSub categoryName (S "spacing") || hasSpacingTokens vars then
          generateSpacingUtilities vars
        else []) ++
        (if isComponentTokens vars then generateComponentUtilities categoryName vars
        else []) := rfl
  rw [hdef]
  exact parenOK_fallback hu3 (not_mem_append (not_mem_append (by decide)
    (noParen_of_safe hcat)) (by decide))

theorem referenced_name_from_vars (categoryName : Str) (vars mixins : List Str) (n : Str)
    (hcat : ∀ c ∈ categoryName, isSafeChar c = true)
    (hvars : ∀ v ∈ vars, strictVarLine v)
    (hmix : ∀ m ∈ mixins, wfMixin m)
    (hsafe : safeNameB n = true)
    (href : refersVar (generateBasicUtilities categoryName vars mixins) n = true) :
    ∃ v ∈ vars, matchVarName v = some n := by
  have hP : ParenOK (vars.filterMap matchVarName)
      (generateBasicUtilities categoryName vars mixins) :=
    generateBasicUtilities_parenOK _ categoryName vars mixins hcat hvars hmix
      (fun v hv nm h => List.mem_filterMap.mpr ⟨v, hv, h⟩)
  unfold refersVar at href
  obtain ⟨x, y, hxy⟩ := containsSub_iff.mp href
  have hre : x ++ (S "var(--" ++ n ++ [')']) ++ y =
      (x ++ S "var") ++ '(' :: (S "--" ++ n ++ ')' :: y) := by
    rw [show S "var(--" = S "var" ++ '(' :: S "--" from rfl]
    simp [List.append_assoc]
  obtain ⟨nm, hnmd, hpref⟩ := hP (x ++ S "var") (S "--" ++ n ++ ')' :: y)
    (by rw [hxy, hre])
  obtain ⟨w, hw⟩ := hpref
  have h2 : ('-' :: '-' :: (nm ++ ')' :: w) : Str) = '-' :: '-' :: (n ++ ')' :: y) := by
    rw [show (S "--" : Str) = ['-', '-'] from rfl] at hw
    rw [show ('-' :: '-' :: (nm ++ ')' :: w) : Str) = (['-', '-'] ++ nm ++ [')']) ++ w
      by simp, hw]
    simp
  have hs : nm ++ ')' :: w = n ++ ')' :: y := by
    injection h2 with _ h3
    injection h3 with _ h4
  obtain ⟨v, hv, hmv⟩ := List.mem_filterMap.mp hnmd
  obtain ⟨nm2, val2, hshape2, hsafe2, _, _⟩ := hvars v hv
  have hmv2 : matchVarName v = some nm2 := by
    rw [hshape2]
    exact matchVarName_shape nm2 val2 (safeNameB_ne hsafe2) (safeNameB_all hsafe2)
  have hnm_eq : nm2 = nm := by
    rw [hmv2] at hmv
    injection hmv
  obtain ⟨heqn, _⟩ := split_unique_left hs
    (fun hm => (safe_char_ne (safeNameB_all hsafe2 _ (hnm_eq ▸ hm))).2.2.2.2.1 rfl)
    (fun hm => (safe_char_ne (safeNameB_all hsafe _ hm)).2.2.2.2.1 rfl)
  exact ⟨v, hv, by rw [hmv, heqn]⟩

theorem concatAll_mem_decomp {x : Str} : ∀ (ls : List Str), x ∈ ls →
    ∃ A B, concatAll ls = A ++ x ++ B
  | [], h => absurd h (by simp)
  | y :: r, h => by
    rcases List.mem_cons.mp h with h1 | h1
    · subst h1
      exact ⟨[], concatAll r, rfl⟩
    · obtain ⟨A, B, hAB⟩ := concatAll_mem_decomp r h1
      refine ⟨y ++ A, B, ?_⟩
      rw [show concatAll (y :: r) = y ++ concatAll r from rfl, hAB]
      simp

theorem concatAll_lines_decomp (f : Str → Str) {v : Str} : ∀ (vs : List Str), v ∈ vs →
    ∃ A B, concatAll (vs.map (fun x => S "  " ++ f x ++ ['\n'])) =
      A ++ ((S "  " ++ f v) ++ '\n' :: B) ∧ (A = [] ∨ ∃ A2, A = A2 ++ ['\n'])
  | [], h => absurd h (by simp)
  | y :: r, h => by
    rcases List.mem_cons.mp h with h1 | h1
    · subst h1
      refine ⟨[], concatAll (r.map (fun x => S "  " ++ f x ++ ['\n'])), ?_, Or.inl rfl⟩
      rw [List.map_cons,
        show concatAll ((S "  " ++ f v ++ ['\n']) :: (r.map (fun x => S "  " ++ f x ++ ['\n']))) =
          (S "  " ++ f v ++ ['\n']) ++ concatAll (r.map (fun x => S "  " ++ f x ++ ['\n']))
          from rfl]
      simp
    · obtain ⟨A, B, hAB, hA⟩ := concatAll_lines_decomp f r h1
      refine ⟨(S "  " ++ f y ++ ['\n']) ++ A, B, ?_, Or.inr ?_⟩
      · rw [List.map_cons,
          show concatAll ((S "  " ++ f y ++ ['\n']) :: (r.map (fun x => S "  " ++ f x ++ ['\n']))) =
            (S "  " ++ f y ++ ['\n']) ++ concatAll (r.map (fun x => S "  " ++ f x ++ ['\n']))
            from rfl, hAB]
        simp
      · rcases hA with rfl | ⟨A2, rfl⟩
        · exact ⟨S "  " ++ f y, by simp⟩
        · exact ⟨(S "  " ++ f y ++ ['\n']) ++ A2, by simp⟩

theorem mem_splitLines_mid (X Y l : Str) (hl : '\n' ∉ l) :
    l ∈ splitLines (X ++ '\n' :: (l ++ '\n' :: Y)) := by
  rw [splitLines_append_nl, splitLines_append_nl, splitLines_no_nl l hl]
  exact List.mem_append.mpr (Or.inr (List.mem_append.mpr (Or.inl (List.mem_cons_self _ _))))

theorem jsTrim_decl_line (nm2 val : Str) :
    jsTrim (S "  " ++ (S "--" ++ nm2 ++ S ": " ++ val ++ [';'])) =
      S "--" ++ nm2 ++ S ": " ++ val ++ [';'] := by
  show jsTrimRight (jsTrimLeft (' ' :: ' ' :: (S "--" ++ nm2 ++ S ": " ++ val ++ [';']))) = _
  have hL : jsTrimLeft (' ' :: ' ' :: (S "--" ++ nm2 ++ S ": " ++ val ++ [';'])) =
      S "--" ++ nm2 ++ S ": " ++ val ++ [';'] := by
    show (' ' :: ' ' :: (S "--" ++ nm2 ++ S ": " ++ val ++ [';'])).dropWhile isJsWs = _
    rw [List.dropWhile_cons, if_pos (by decide), List.dropWhile_cons, if_pos (by decide)]
    apply dropWhile_eq_self_of_head
    intro c hc
    have hc2 : c = '-' := by
      rw [show (S "--" ++ nm2 ++ S ": " ++ val ++ [';']).head? = some '-' from rfl] at hc
      injection hc with h
      exact h.symm
    rw [hc2]
    decide
  rw [hL]
  show ((S "--" ++ nm2 ++ S ": " ++ val ++ [';']).reverse.dropWhile isJsWs).reverse = _
  have hrev : (S "--" ++ nm2 ++ S ": " ++ val ++ [';']).reverse =
      ';' :: (S "--" ++ nm2 ++ S ": " ++ val).reverse := by
    simp
  rw [hrev, List.dropWhile_cons, if_neg (by decide), ← hrev, List.reverse_reverse]

theorem declOfLine_decl_line (nm2 val : Str) (hnm2 : ∀ c ∈ nm2, isSafeChar c = true) :
    declOfLine (S "  " ++ (S "--" ++ nm2 ++ S ": " ++ val ++ [';'])) = some nm2 := by
  unfold declOfLine
  rw [jsTrim_decl_line nm2 val]
  have hpre : (S "--").isPrefixOf (S "--" ++ nm2 ++ S ": " ++ val ++ [';']) = true := by
    rw [List.isPrefixOf_iff_prefix]
    exact ⟨nm2 ++ S ": " ++ val ++ [';'], by simp⟩
  rw [if_pos hpre]
  have hshape : S "--" ++ nm2 ++ S ": " ++ val ++ [';'] =
      '-' :: '-' :: (nm2 ++ ':' :: (' ' :: (val ++ [';']))) := by
    rw [show S "--" = ['-', '-'] from rfl, show S ": " = [':', ' '] from rfl]
    simp [List.append_assoc]
  rw [hshape]
  rw [show (('-' :: '-' :: (nm2 ++ ':' :: (' ' :: (val ++ [';'])))).drop 2) =
    nm2 ++ ':' :: (' ' :: (val ++ [';'])) from rfl]
  rw [takeWhile_name_part _ hnm2]

theorem fixLine_of_decl {l : Str} (h : (S "--").isPrefixOf (jsTrim l) = true) :
    fixLine l = l := by
  unfold fixLine
  rw [if_pos (by rw [h]; rfl)]

theorem declNames_gFR_of_mem (pre l nm : Str) (hmem : l ∈ splitLines pre)
    (hpre : (S "--").isPrefixOf (jsTrim l) = true) (hdecl : declOfLine l = some nm) :
    nm ∈ declNames (globalFixReferences pre) := by
  unfold declNames
  rw [splitLines_globalFixReferences]
  exact List.mem_filterMap.mpr ⟨l, List.mem_map.mpr ⟨l, hmem, fixLine_of_decl hpre⟩, hdecl⟩

theorem declNames_variablesFile (cats : List (Str × List Str)) (name : Str)
    (vars : List Str) (nm val : Str) (h : (name, vars) ∈ cats)
    (hv : (S "--" ++ nm ++ S ": " ++ val ++ [';']) ∈ vars)
    (hnm : ∀ c ∈ nm, isSafeChar c = true) (hnl : '\n' ∉ val) :
    nm ∈ declNames (generateVariablesFileContent cats) := by
  have hcontent : generateVariablesFileContent cats = globalFixReferences
      (S "// Design Tokens - Base CSS Variables\n// Automatically generated from Figma tokens\n// Theme-independent tokens\n\n:root \x7b\n" ++
        concatAll (cats.map (fun kc =>
          if kc.2.length > 0 then
            S "\n  // " ++ capFirst kc.1 ++ S " tokens\n" ++
              concatAll (kc.2.map (fun v => S "  " ++ v ++ ['\n']))
          else [])) ++ S "\x7d\n") := rfl
  rw [hcontent]
  have hl0 : '\n' ∉ S "  " ++ (S "--" ++ nm ++ S ": " ++ val ++ [';']) :=
    not_mem_append (by decide) (not_mem_append (not_mem_append (not_mem_append
      (not_mem_append (by decide) (fun hm => (safe_char_ne (hnm _ hm)).2.2.1 rfl))
      (by decide)) hnl) (by decide))
  refine declNames_gFR_of_mem _ (S "  " ++ (S "--" ++ nm ++ S ": " ++ val ++ [';'])) nm
    ?hmem ?hpre ?hdecl
  case hpre =>
    rw [jsTrim_decl_line]
    rw [List.isPrefixOf_iff_prefix]
    exact ⟨nm ++ S ": " ++ val ++ [';'], by simp⟩
  case hdecl => exact declOfLine_decl_line nm val hnm
  case hmem =>
    have hmemmap : (if vars.length > 0 then
        S "\n  // " ++ capFirst name ++ S " tokens\n" ++
          concatAll (vars.map (fun v => S "  " ++ v ++ ['\n']))
      else []) ∈ (cats.map (fun kc =>
        if kc.2.length > 0 then
          S "\n  // " ++ capFirst kc.1 ++ S " tokens\n" ++
            concatAll (kc.2.map (fun v => S "  " ++ v ++ ['\n']))
        else [])) := List.mem_map.mpr ⟨(name, vars), h, rfl⟩
    rw [if_pos (List.length_pos.mpr (List.ne_nil_of_mem hv))] at hmemmap
    obtain ⟨A, B, hAB⟩ := concatAll_mem_decomp _ hmemmap
    obtain ⟨A2, B2, hAB2, hA2⟩ := concatAll_lines_decomp (fun x => x) vars hv
    rw [hAB2] at hAB
    rcases hA2 with rfl | ⟨A3, rfl⟩
    · have hPRE : S "// Design Tokens - Base CSS Variables\n// Automatically generated from Figma tokens\n// Theme-independent tokens\n\n:root \x7b\n" ++
          concatAll (cats.map (fun kc =>
            if kc.2.length > 0 then
              S "\n  // " ++ capFirst kc.1 ++ S " tokens\n" ++
                concatAll (kc.2.map (fun v => S "  " ++ v ++ ['\n']))
            else [])) ++ S "\x7d\n" =
          (S "// Design Tokens - Base CSS Variables\n// Automatically generated from Figma tokens\n// Theme-independent tokens\n\n:root \x7b\n" ++
            A ++ ('\n' :: (S "  // " ++ capFirst name ++ S " tokens"))) ++
          '\n' :: ((S "  " ++ (S "--" ++ nm ++ S ": " ++ val ++ [';'])) ++
            '\n' :: (B2 ++ B ++ S "\x7d\n")) := by
        rw [hAB]
        rw [show S "\n  // " = '\n' :: S "  // " from rfl,
          show S " tokens\n" = S " tokens" ++ ['\n'] from rfl]
        simp [List.append_assoc]
      rw [hPRE]
      exact mem_splitLines_mid _ _ _ hl0
    · have hPRE : S "// Design Tokens - Base CSS Variables\n// Automatically generated from Figma tokens\n// Theme-independent tokens\n\n:root \x7b\n" ++
          concatAll (cats.map (fun kc =>
            if kc.2.length > 0 then
              S "\n  // " ++ capFirst kc.1 ++ S " tokens\n" ++
                concatAll (kc.2.map (fun v => S "  " ++ v ++ ['\n']))
            else [])) ++ S "\x7d\n" =
          (S "// Design Tokens - Base CSS Variables\n// Automatically generated from Figma tokens\n// Theme-independent tokens\n\n:root \x7b\n" ++
            A ++ (S "\n  // " ++ capFirst name ++ S " tokens\n") ++ A3) ++
          '\n' :: ((S "  " ++ (S "--" ++ nm ++ S ": " ++ val ++ [';'])) ++
            '\n' :: (B2 ++ B ++ S "\x7d\n")) := by
        rw [hAB]
        simp [List.append_assoc]
      rw [hPRE]
      exact mem_splitLines_mid _ _ _ hl0

theorem cleanThemeVar_cons (c : Char) (rest : Str) :
    cleanThemeVar (c :: rest) =
      if (S "-light:").isPrefixOf (c :: rest) then (c :: rest).drop 6
      else if (S "-dark:").isPrefixOf (c :: rest) then (c :: rest).drop 5
      else c :: cleanThemeVar rest := by
  rw [cleanThemeVar.eq_def]

theorem mem_of_isPrefixOf {p s : Str} (h : p.isPrefixOf s = true) {c : Char}
    (hc : c ∈ p) : c ∈ s := by
  obtain ⟨w, rfl⟩ := List.isPrefixOf_iff_prefix.mp h
  exact List.mem_append.mpr (Or.inl hc)

theorem cleanThemeVar_no_colon : ∀ (s : Str), ':' ∉ s → cleanThemeVar s = s
  | [], _ => rfl
  | c :: rest, h => by
    rw [cleanThemeVar_cons,
      if_neg (fun hp => h (mem_of_isPrefixOf hp (by decide))),
      if_neg (fun hp => h (mem_of_isPrefixOf hp (by decide))),
      cleanThemeVar_no_colon rest (fun hm => h (List.mem_cons_of_mem _ hm))]

theorem prefixTheme_eq {pat t rest2 : Str} (hpat : ':' ∉ pat) (ht : ':' ∉ t)
    (h : (pat ++ [':']).isPrefixOf (t ++ ':' :: rest2) = true) : t = pat := by
  obtain ⟨w, hw⟩ := List.isPrefixOf_iff_prefix.mp h
  have hw2 : pat ++ ':' :: w = t ++ ':' :: rest2 := by
    rw [← hw]
    simp
  exact (split_unique_left hw2 hpat ht).1.symm

theorem strip_cons {c : Char} {t : Str} (h1 : c :: t ≠ S "-light")
    (h2 : c :: t ≠ S "-dark") :
    stripThemeSuffix (c :: t) = c :: stripThemeSuffix t := by
  have hl : (S "-light").isSuffixOf (c :: t) = true ↔ (S "-light").isSuffixOf t = true := by
    rw [List.isSuffixOf_iff_suffix, List.isSuffixOf_iff_suffix, List.suffix_cons_iff]
    constructor
    · rintro (he | hs)
      · exact absurd he.symm h1
      · exact hs
    · exact Or.inr
  have hd : (S "-dark").isSuffixOf (c :: t) = true ↔ (S "-dark").isSuffixOf t = true := by
    rw [List.isSuffixOf_iff_suffix, List.isSuffixOf_iff_suffix, List.suffix_cons_iff]
    constructor
    · rintro (he | hs)
      · exact absurd he.symm h2
      · exact hs
    · exact Or.inr
  by_cases hlight : (S "-light").isSuffixOf t = true
  · have hlen : 6 ≤ t.length := by
      have := (List.isSuffixOf_iff_suffix.mp hlight).length_le
      simpa using this
    have hLHS : stripThemeSuffix (c :: t) = (c :: t).take ((c :: t).length - 6) := by
      unfold stripThemeSuffix
      rw [if_pos (hl.mpr hlight)]
    have hRHS : stripThemeSuffix t = t.take (t.length - 6) := by
      unfold stripThemeSuffix
      rw [if_pos hlight]
    rw [hLHS, hRHS, List.length_cons, show t.length + 1 - 6 = (t.length - 6) + 1 by omega]
    rfl
  · by_cases hdark : (S "-dark").isSuffixOf t = true
    · have hlen : 5 ≤ t.length := by
        have := (List.isSuffixOf_iff_suffix.mp hdark).length_le
        simpa using this
      have hLHS : stripThemeSuffix (c :: t) = (c :: t).take ((c :: t).length - 5) := by
        unfold stripThemeSuffix
        rw [if_neg (fun hp => hlight (hl.mp hp)), if_pos (hd.mpr hdark)]
      have hRHS : stripThemeSuffix t = t.take (t.length - 5) := by
        unfold stripThemeSuffix
        rw [if_neg hlight, if_pos hdark]
      rw [hLHS, hRHS, List.length_cons, show t.length + 1 - 5 = (t.length - 5) + 1 by omega]
      rfl
    · have hLHS : stripThemeSuffix (c :: t) = c :: t := by
        unfold stripThemeSuffix
        rw [if_neg (fun hp => hlight (hl.mp hp)), if_neg (fun hp => hdark (hd.mp hp))]
      have hRHS : stripThemeSuffix t = t := by
        unfold stripThemeSuffix
        rw [if_neg hlight, if_neg hdark]
      rw [hLHS, hRHS]

theorem strip_sub {nm : Str} : ∀ c ∈ stripThemeSuffix nm, c ∈ nm := by
  intro c hc
  unfold stripThemeSuffix at hc
  split at hc
  · exact List.mem_of_mem_take hc
  · split at hc
    · exact List.mem_of_mem_take hc
    · exact hc

theorem cleanThemeVar_safe_part (val : Str) (hval : ':' ∉ val) : ∀ (t : Str),
    (∀ c ∈ t, isSafeChar c = true) →
    cleanThemeVar (t ++ ':' :: (' ' :: (val ++ [';']))) =
      stripThemeSuffix t ++ ':' :: (' ' :: (val ++ [';']))
  | [], _ => by
    rw [List.nil_append, cleanThemeVar_cons,
      if_neg (by rw [show (S "-light:").isPrefixOf
        (':' :: (' ' :: (val ++ [';']))) = false from rfl]; simp),
      if_neg (by rw [show (S "-dark:").isPrefixOf
        (':' :: (' ' :: (val ++ [';']))) = false from rfl]; simp),
      cleanThemeVar_no_colon (' ' :: (val ++ [';'])) (fun hm => by
        rcases List.mem_cons.mp hm with he | hm2
        · exact absurd he (by decide)
        · rcases List.mem_append.mp hm2 with h3 | h3
          · exact hval h3
          · exact absurd (List.mem_singleton.mp h3) (by decide)),
      show stripThemeSuffix [] = [] from rfl, List.nil_append]
  | a :: t2, hsafe => by
    by_cases hL : a :: t2 = S "-light"
    · rw [hL]
      rw [show (S "-light" : Str) ++ ':' :: (' ' :: (val ++ [';'])) =
        '-' :: ('l' :: 'i' :: 'g' :: 'h' :: 't' :: (':' :: (' ' :: (val ++ [';']))))
        from rfl]
      rw [cleanThemeVar_cons, if_pos (show (S "-light:").isPrefixOf
        ('-' :: ('l' :: 'i' :: 'g' :: 'h' :: 't' :: (':' :: (' ' :: (val ++ [';']))))) =
        true from rfl)]
      rw [show stripThemeSuffix (S "-light") = [] from by decide, List.nil_append]
      rfl
    · by_cases hD : a :: t2 = S "-dark"
      · rw [hD]
        rw [show (S "-dark" : Str) ++ ':' :: (' ' :: (val ++ [';'])) =
          '-' :: ('d' :: 'a' :: 'r' :: 'k' :: (':' :: (' ' :: (val ++ [';']))))
          from rfl]
        rw [cleanThemeVar_cons,
          if_neg (by rw [show (S "-light:").isPrefixOf
            ('-' :: ('d' :: 'a' :: 'r' :: 'k' :: (':' :: (' ' :: (val ++ [';']))))) =
            false from rfl]; simp),
          if_pos (show (S "-dark:").isPrefixOf
            ('-' :: ('d' :: 'a' :: 'r' :: 'k' :: (':' :: (' ' :: (val ++ [';']))))) =
            true from rfl)]
        rw [show stripThemeSuffix (S "-dark") = [] from by decide, List.nil_append]
        rfl
      · have hsafe_t : ':' ∉ a :: t2 :=
          fun hm => (safe_char_ne (hsafe _ hm)).2.2.2.2.2 rfl
        have hnl : ¬ ((S "-light:").isPrefixOf
            (a :: (t2 ++ ':' :: (' ' :: (val ++ [';']))))) = true :=
          fun hp => hL (prefixTheme_eq (by decide) hsafe_t hp)
        have hnd : ¬ ((S "-dark:").isPrefixOf
            (a :: (t2 ++ ':' :: (' ' :: (val ++ [';']))))) = true :=
          fun hp => hD (prefixTheme_eq (by decide) hsafe_t hp)
        rw [show (a :: t2) ++ ':' :: (' ' :: (val ++ [';'])) =
          a :: (t2 ++ ':' :: (' ' :: (val ++ [';']))) from rfl]
        rw [cleanThemeVar_cons, if_neg hnl, if_neg hnd,
          cleanThemeVar_safe_part val hval t2
            (fun c hc => hsafe c (List.mem_cons_of_mem _ hc)),
          strip_cons hL hD]
        rfl

theorem cleanThemeVar_line (nm val : Str) (hnm : ∀ c ∈ nm, isSafeChar c = true)
    (hval : ':' ∉ val) (h1 : nm ≠ S "light") (h2 : nm ≠ S "dark") :
    cleanThemeVar (S "--" ++ nm ++ S ": " ++ val ++ [';']) =
      S "--" ++ stripThemeSuffix nm ++ S ": " ++ val ++ [';'] := by
  have hshape : S "--" ++ nm ++ S ": " ++ val ++ [';'] =
      '-' :: ('-' :: (nm ++ ':' :: (' ' :: (val ++ [';'])))) := by
    rw [show S "--" = ['-', '-'] from rfl, show S ": " = [':', ' '] from rfl]
    simp [List.append_assoc]
  have hshape2 : S "--" ++ stripThemeSuffix nm ++ S ": " ++ val ++ [';'] =
      '-' :: ('-' :: (stripThemeSuffix nm ++ ':' :: (' ' :: (val ++ [';'])))) := by
    rw [show S "--" = ['-', '-'] from rfl, show S ": " = [':', ' '] from rfl]
    simp [List.append_assoc]
  rw [hshape, hshape2]
  rw [cleanThemeVar_cons,
    if_neg (by rw [show (S "-light:").isPrefixOf
      ('-' :: ('-' :: (nm ++ ':' :: (' ' :: (val ++ [';']))))) = false from rfl]; simp),
    if_neg (by rw [show (S "-dark:").isPrefixOf
      ('-' :: ('-' :: (nm ++ ':' :: (' ' :: (val ++ [';']))))) = false from rfl]; simp)]
  have hsafe1 : ':' ∉ '-' :: nm := by
    intro hm
    rcases List.mem_cons.mp hm with he | hm2
    · exact absurd he (by decide)
    · exact (safe_char_ne (hnm _ hm2)).2.2.2.2.2 rfl
  have hp1 : ¬ ((S "-light:").isPrefixOf
      ('-' :: (nm ++ ':' :: (' ' :: (val ++ [';']))))) = true := by
    intro hp
    have he : '-' :: nm = S "-light" := prefixTheme_eq (by decide) hsafe1 hp
    rw [show (S "-light" : Str) = '-' :: S "light" from rfl] at he
    injection he with _ he2
    exact h1 he2
  have hp2 : ¬ ((S "-dark:").isPrefixOf
      ('-' :: (nm ++ ':' :: (' ' :: (val ++ [';']))))) = true := by
    intro hp
    have he : '-' :: nm = S "-dark" := prefixTheme_eq (by decide) hsafe1 hp
    rw [show (S "-dark" : Str) = '-' :: S "dark" from rfl] at he
    injection he with _ he2
    exact h2 he2
  rw [cleanThemeVar_cons, if_neg hp1, if_neg hp2,
    cleanThemeVar_safe_part val hval nm hnm]

theorem declNames_themeFile (tn : Str) (cats : List (Str × List Str)) (name : Str)
    (vars : List Str) (nm val : Str) (h : (name, vars) ∈ cats)
    (hv : (S "--" ++ nm ++ S ": " ++ val ++ [';']) ∈ vars)
    (hnm : ∀ c ∈ nm, isSafeChar c = true) (hval : ':' ∉ val) (hnl : '\n' ∉ val)
    (h1 : nm ≠ S "light") (h2 : nm ≠ S "dark") :
    stripThemeSuffix nm ∈ declNames (generateThemeFileContent tn cats) := by
  have hcontent : generateThemeFileContent tn cats = globalFixReferences
      ((S "// Design Tokens - " ++ capFirst tn ++
        S " Theme\n// Automatically generated from Figma tokens\n\n@import " ++ apos ++
        S "variables" ++ apos ++ S ";\n\n") ++
        (if tn = S "light" then S ":root \x7b\n" else '.' :: tn ++ S " \x7b\n") ++
        concatAll (cats.map (fun kc =>
          if kc.2.length > 0 then
            S "\n  // " ++ capFirst (jsTrim (removeLightDark kc.1)) ++ S " tokens\n" ++
              concatAll (kc.2.map (fun v => S "  " ++ cleanThemeVar v ++ ['\n']))
          else [])) ++ S "\x7d\n") := rfl
  rw [hcontent]
  have hstrip_safe : ∀ c ∈ stripThemeSuffix nm, isSafeChar c = true :=
    fun c hc => hnm c (strip_sub c hc)
  have hl0 : '\n' ∉ S "  " ++ (S "--" ++ stripThemeSuffix nm ++ S ": " ++ val ++ [';']) :=
    not_mem_append (by decide) (not_mem_append (not_mem_append (not_mem_append
      (not_mem_append (by decide) (fun hm => (safe_char_ne (hstrip_safe _ hm)).2.2.1 rfl))
      (by decide)) hnl) (by decide))
  refine declNames_gFR_of_mem _
    (S "  " ++ (S "--" ++ stripThemeSuffix nm ++ S ": " ++ val ++ [';']))
    (stripThemeSuffix nm) ?hmem ?hpre ?hdecl
  case hpre =>
    rw [jsTrim_decl_line]
    rw [List.isPrefixOf_iff_prefix]
    exact ⟨stripThemeSuffix nm ++ S ": " ++ val ++ [';'], by simp⟩
  case hdecl => exact declOfLine_decl_line (stripThemeSuffix nm) val hstrip_safe
  case hmem =>
    have hmemmap : (if vars.length > 0 then
        S "\n  // " ++ capFirst (jsTrim (removeLightDark name)) ++ S " tokens\n" ++
          concatAll (vars.map (fun v => S "  " ++ cleanThemeVar v ++ ['\n']))
      else []) ∈ (cats.map (fun kc =>
        if kc.2.length > 0 then
          S "\n  // " ++ capFirst (jsTrim (removeLightDark kc.1)) ++ S " tokens\n" ++
            concatAll (kc.2.map (fun v => S "  " ++ cleanThemeVar v ++ ['\n']))
        else [])) := List.mem_map.mpr ⟨(name, vars), h, rfl⟩
    rw [if_pos (List.length_pos.mpr (List.ne_nil_of_mem hv))] at hmemmap
    obtain ⟨A, B, hAB⟩ := concatAll_mem_decomp _ hmemmap
    obtain ⟨A2, B2, hAB2, hA2⟩ := concatAll_lines_decomp cleanThemeVar vars hv
    rw [cleanThemeVar_line nm val hnm hval h1 h2] at hAB2
    rw [hAB2] at hAB
    rcases hA2 with rfl | ⟨A3, rfl⟩
    · have hPRE : (S "// Design Tokens - " ++ capFirst tn ++
          S " Theme\n// Automatically generated from Figma tokens\n\n@import " ++ apos ++
          S "variables" ++ apos ++ S ";\n\n") ++
          (if tn = S "light" then S ":root \x7b\n" else '.' :: tn ++ S " \x7b\n") ++
          concatAll (cats.map (fun kc =>
            if kc.2.length > 0 then
              S "\n  // " ++ capFirst (jsTrim (removeLightDark kc.1)) ++ S " tokens\n" ++
                concatAll (kc.2.map (fun v => S "  " ++ cleanThemeVar v ++ ['\n']))
            else [])) ++ S "\x7d\n" =
          ((S "// Design Tokens - " ++ capFirst tn ++
            S " Theme\n// Automatically generated from Figma tokens\n\n@import " ++ apos ++
            S "variables" ++ apos ++ S ";\n\n") ++
            (if tn = S "light" then S ":root \x7b\n" else '.' :: tn ++ S " \x7b\n") ++
            A ++ ('\n' :: (S "  // " ++ capFirst (jsTrim (removeLightDark name)) ++
              S " tokens"))) ++
          '\n' :: ((S "  " ++ (S "--" ++ stripThemeSuffix nm ++ S ": " ++ val ++ [';'])) ++
            '\n' :: (B2 ++ B ++ S "\x7d\n")) := by
        rw [hAB]
        rw [show S "\n  // " = '\n' :: S "  // " from rfl,
          show S " tokens\n" = S " tokens" ++ ['\n'] from rfl]
        simp [List.append_assoc]
      rw [hPRE]
      exact mem_splitLines_mid _ _ _ hl0
    · have hPRE : (S "// Design Tokens - " ++ capFirst tn ++
          S " Theme\n// Automatically generated from Figma tokens\n\n@import " ++ apos ++
          S "variables" ++ apos ++ S ";\n\n") ++
          (if tn = S "light" then S ":root \x7b\n" else '.' :: tn ++ S " \x7b\n") ++
          concatAll (cats.map (fun kc =>
            if kc.2.length > 0 then
              S "\n  // " ++ capFirst (jsTrim (removeLightDark kc.1)) ++ S " tokens\n" ++
                concatAll (kc.2.map (fun v => S "  " ++ cleanThemeVar v ++ ['\n']))
            else [])) ++ S "\x7d\n" =
          ((S "// Design Tokens - " ++ capFirst tn ++
            S " Theme\n// Automatically generated from Figma tokens\n\n@import " ++ apos ++
            S "variables" ++ apos ++ S ";\n\n") ++
            (if tn = S "light" then S ":root \x7b\n" else '.' :: tn ++ S " \x7b\n") ++
            A ++ (S "\n  // " ++ capFirst (jsTrim (removeLightDark name)) ++
              S " tokens\n") ++ A3) ++
          '\n' :: ((S "  " ++ (S "--" ++ stripThemeSuffix nm ++ S ": " ++ val ++ [';'])) ++
            '\n' :: (B2 ++ B ++ S "\x7d\n")) := by
        rw [hAB]
        simp [List.append_assoc]
      rw [hPRE]
      exact mem_splitLines_mid _ _ _ hl0

/-- C2 (amended): for a well-formed category (safe name, declaration-shaped
variable lines, well-formed mixins), every safe name referenced by a
`var(--...)` call in the utility-class body is the `--([^:]+):` match of one
of the category's own variable lines; that name then appears verbatim among
the declarations of any base-variables document built from a category list
containing this category, and its `-light`/`-dark`-stripped form
(`stripThemeSuffix`) appears among the declarations of any theme document
built from such a list.  Verbatim round-trip through a theme document
therefore holds exactly for names with no `-light`/`-dark` suffix; the
claim as stated fails for suffixed names (see the counterexample). -/
theorem c2_component_roundtrip_amended (categoryName : Str) (vars mixins : List Str)
    (n : Str)
    (hcat : ∀ c ∈ categoryName, isSafeChar c = true)
    (hvars : ∀ v ∈ vars, strictVarLine v)
    (hmix : ∀ m ∈ mixins, wfMixin m)
    (hsafe : safeNameB n = true)
    (href : refersVar (generateBasicUtilities categoryName vars mixins) n = true) :
    (∃ v ∈ vars, matchVarName v = some n) ∧
    (∀ cats : List (Str × List Str), (categoryName, vars) ∈ cats →
      n ∈ declNames (generateVariablesFileContent cats)) ∧
    (∀ (tn : Str) (cats : List (Str × List Str)), (categoryName, vars) ∈ cats →
      n ≠ S "light" → n ≠ S "dark" →
      stripThemeSuffix n ∈ declNames (generateThemeFileContent tn cats)) := by
  obtain ⟨v, hv, hmv⟩ :=
    referenced_name_from_vars categoryName vars mixins n hcat hvars hmix hsafe href
  obtain ⟨nm, val, hshape, hsafeN, hvalc, hvaln⟩ := hvars v hv
  have hmv2 : matchVarName v = some nm := by
    rw [hshape]
    exact matchVarName_shape nm val (safeNameB_ne hsafeN) (safeNameB_all hsafeN)
  have heq : nm = n := by
    rw [hmv2] at hmv
    injection hmv
  subst heq
  refine ⟨⟨v, hv, hmv2⟩, ?_, ?_⟩
  · intro cats hc
    exact declNames_variablesFile cats categoryName vars nm val hc (hshape ▸ hv)
      (safeNameB_all hsafeN) hvaln
  · intro tn cats hc hln hld
    exact declNames_themeFile tn cats categoryName vars nm val hc (hshape ▸ hv)
      (safeNameB_all hsafeN) hvalc hvaln hln hld

/-- Witness for the amended C2 theorem, at the concrete category `color`
with the single declaration `--color-primary: #fff;`. -/
theorem c2_component_roundtrip_amended_witness :
    (∃ v ∈ [S "--color-primary: #fff;"], matchVarName v = some (S "color-primary")) ∧
    (∀ cats : List (Str × List Str), (S "color", [S "--color-primary: #fff;"]) ∈ cats →
      S "color-primary" ∈ declNames (generateVariablesFileContent cats)) ∧
    (∀ (tn : Str) (cats : List (Str × List Str)),
      (S "color", [S "--color-primary: #fff;"]) ∈ cats →
      S "color-primary" ≠ S "light" → S "color-primary" ≠ S "dark" →
      stripThemeSuffix (S "color-primary") ∈
        declNames (generateThemeFileContent tn cats)) :=
  c2_component_roundtrip_amended (S "color") [S "--color-primary: #fff;"] []
    (S "color-primary")
    (by decide)
    (fun v hv => by
      rw [List.mem_singleton.mp hv]
      exact ⟨S "color-primary", S "#fff", by decide, by decide, by decide, by decide⟩)
    (fun m hm => absurd hm (by simp))
    (by decide)
    (by decide)

/-- C2, counterexample: the claim says every name referenced in a component
document's utility body appears verbatim as a declared name in the
base-variables or imported theme document.  For the one-token document
`lightDoc` (category `themeLight`, token `textColorLight`), the component
file's utility body references `var(--text--color--light)` and the file
imports the light theme, yet neither the base-variables document (empty)
nor the light theme document declares `text--color--light`: the theme
emitter strips the `-light` suffix and declares `text--color-` instead. -/
theorem c2_component_roundtrip_counterexample :
    refersVar (generateBasicUtilities (S "themelight")
      (varsOf (categoriesOf lightDoc) (S "themelight"))
      (mixinsOf (categoriesOf lightDoc) (S "themelight"))) (S "text--color--light") =
      true ∧
    containsSub (generateCategoryFileContent (S "themelight")
      (varsOf (categoriesOf lightDoc) (S "themelight"))
      (mixinsOf (categoriesOf lightDoc) (S "themelight")))
      (S "@import " ++ apos ++ S "../base/light" ++ apos ++ [';']) = true ∧
    S "text--color--light" ∉
      declNames (generateVariablesFileContent (partitionThemes (categoriesOf lightDoc)).base) ∧
    S "text--color--light" ∉
      declNames (generateThemeFileContent (S "light")
        (partitionThemes (categoriesOf lightDoc)).light) ∧
    S "text--color-" ∈
      declNames (generateThemeFileContent (S "light")
        (partitionThemes (categoriesOf lightDoc)).light) := by
  refine ⟨by decide, by decide, by decide, by decide, by decide⟩
